import Mathlib

/-!
# pthread_once (libs/libc/pthread/pthread_once.c)

A shallow embedding of `pthread_once` and of the recursive mutex `g_lock` it uses.

* The sequential part passes an explicit `World` through one call: the memory cells of type
  `pthread_once_t`, the file-static `g_lock`, and the rest of the program state.  An
  `init_routine` is a function on worlds, so it can itself call `pthread_once`.
* The concurrent part is a step function on a system of `n` threads that all execute the body
  of `pthread_once` on one token, one source statement per step.
-/

namespace PthreadOnce

/-! ## Data model -/

/-- Thread identifier of the calling thread (pid_t). -/
abbrev Tid := Nat

/-- Modelled from the spec: the type rmutex_t of nuttx/mutex.h, which is not among the sources.
The spec describes it as a re-entrant lock "tracked via a hold count": `holder` is the owning
thread, if any, and `count` the number of acquisitions the owner has not yet released. -/
structure RMutex where
  holder : Option Tid
  count : Nat
deriving DecidableEq

/-- Modelled from the spec: the static initialiser NXRMUTEX_INITIALIZER of nuttx/mutex.h, a lock
that nobody holds. -/
def NXRMUTEX_INITIALIZER : RMutex := ⟨none, 0⟩

/-- Modelled from the spec: nxrmutex_lock of nuttx/mutex.h, "lock() (block until acquired)" on a
lock "that the same thread may re-acquire without blocking itself".  The result is `none` when the
lock is held by another thread, in which case the caller waits. -/
def nxrmutex_lock (self : Tid) (m : RMutex) : Option RMutex :=
  match m.holder with
  | none => some ⟨some self, 1⟩
  | some h => if h = self then some ⟨some self, m.count + 1⟩ else none

/-- Modelled from the spec: nxrmutex_unlock of nuttx/mutex.h, "unlock() (release; safe to call only
while held by the calling thread, and matching a prior lock() by the same thread for recursive
cases)".  A call by a thread that does not hold the lock changes nothing. -/
def nxrmutex_unlock (self : Tid) (m : RMutex) : RMutex :=
  if m.holder = some self then
    if m.count ≤ 1 then ⟨none, 0⟩ else ⟨some self, m.count - 1⟩
  else m

/-- Number of acquisitions of the lock that thread `self` currently holds. -/
def holdCount (self : Tid) (m : RMutex) : Nat :=
  if m.holder = some self then m.count else 0

/-- Program state seen by a call: `once a` is the `pthread_once_t` object at address `a`,
`g_lock` is the file-static recursive mutex, `user` is all other state of the program. -/
structure World (σ : Type) where
  once : Nat → Bool
  g_lock : RMutex
  user : σ

/-- Ways in which a C function call can end: it returns a value, it is left by a non-local exit
(the thread exits or jumps out), or it waits for a lock that another thread holds. -/
inductive Outcome (α σ : Type) where
  | ret (val : α) (w : World σ)
  | abort (w : World σ)
  | blocked (w : World σ)

/-- World in which a call ended. -/
def Outcome.world {α σ : Type} : Outcome α σ → World σ
  | .ret _ w => w
  | .abort w => w
  | .blocked w => w

/-- Returned value, if the call returned. -/
def Outcome.status {α σ : Type} : Outcome α σ → Option α
  | .ret r _ => some r
  | .abort _ => none
  | .blocked _ => none

/-- An initialisation routine, `void (*init_routine)(void)`. -/
abbrev Action (σ : Type) := World σ → Outcome Unit σ

/-- Success status. -/
def OK : Int := 0

/-- Modelled from the spec: the constant EINVAL of errno.h, "the platform's standard invalid
argument error code"; its value on this platform is 22. -/
def EINVAL : Int := 22

/-- Assignment `*once_control = true` for the object at address `p`. -/
def setOnce (once : Nat → Bool) (p : Nat) : Nat → Bool :=
  fun a => if a = p then true else once a

/-! ## The function -/

/-- The function pthread_once of pthread_once.c, called by thread `self`.  A null pointer is
`none`; a non-null `once_control` is the address of a `pthread_once_t` object. -/
def pthread_once {σ : Type} (self : Tid) (once_control : Option Nat)
    (init_routine : Option (Action σ)) (w : World σ) : Outcome Int σ :=
  match once_control, init_routine with
  | some p, some f =>
    -- nxrmutex_lock(&g_lock);
    match nxrmutex_lock self w.g_lock with
    | none => .blocked w
    | some m =>
      let w1 : World σ := { w with g_lock := m }
      -- if (!*once_control)
      if w1.once p = false then
        -- *once_control = true;
        let w2 : World σ := { w1 with once := setOnce w1.once p }
        -- init_routine();
        match f w2 with
        | .ret () w3 =>
          -- nxrmutex_unlock(&g_lock); return OK;
          .ret OK { w3 with g_lock := nxrmutex_unlock self w3.g_lock }
        | .abort w3 => .abort w3
        | .blocked w3 => .blocked w3
      else
        -- nxrmutex_unlock(&g_lock); return OK;
        .ret OK { w1 with g_lock := nxrmutex_unlock self w1.g_lock }
  -- if (once_control == NULL || init_routine == NULL) return EINVAL;
  | _, _ => .ret EINVAL w

/-! ## Derived notions used in the statements -/

/-- World at the moment `init_routine` is entered (line 86): the lock has been taken, giving `m`,
and the token at `p` has been set. -/
def atInit {σ : Type} (p : Nat) (m : RMutex) (w : World σ) : World σ :=
  { w with g_lock := m, once := setOnce w.once p }

/-- World after the final `nxrmutex_unlock(&g_lock)` of a call by thread `self`. -/
def afterUnlock {σ : Type} (self : Tid) (w : World σ) : World σ :=
  { w with g_lock := nxrmutex_unlock self w.g_lock }

/-- An action leaves the token at `p` set once it is set, however the action ends. -/
def KeepsToken {σ : Type} (p : Nat) (f : Action σ) : Prop :=
  ∀ v : World σ, v.once p = true → (f v).world.once p = true

/-- An action returns with thread `self` holding the lock as often as on entry. -/
def KeepsHold {σ : Type} (self : Tid) (f : Action σ) : Prop :=
  ∀ v v3 : World σ, f v = .ret () v3 → holdCount self v3.g_lock = holdCount self v.g_lock

/-- The statement `pthread_once(once_control, init_routine);` inside an action, its status
ignored. -/
def callOnce {σ : Type} (self : Tid) (once_control : Option Nat)
    (init_routine : Option (Action σ)) : Action σ :=
  fun w =>
    match pthread_once self once_control init_routine w with
    | .ret _ w1 => .ret () w1
    | .abort w1 => .abort w1
    | .blocked w1 => .blocked w1

/-- Sequential composition `f(); g();` of two actions. -/
def seqAction {σ : Type} (f g : Action σ) : Action σ :=
  fun w =>
    match f w with
    | .ret () w1 => g w1
    | .abort w1 => .abort w1
    | .blocked w1 => .blocked w1

/-- The initialiser of the spec's scenario: it increments a shared counter. -/
def incr : Action Nat :=
  fun w => .ret () { w with user := w.user + 1 }

/-- One call in a sequence of calls. -/
structure Call (σ : Type) where
  tid : Tid
  once_control : Option Nat
  init_routine : Option (Action σ)

/-- Calls made one after another, each starting in the world the previous one returned in;
the statuses are collected in order.  The sequence stops at a call that does not return. -/
def runCalls {σ : Type} : List (Call σ) → World σ → Outcome (List Int) σ
  | [], w => .ret [] w
  | c :: cs, w =>
    match pthread_once c.tid c.once_control c.init_routine w with
    | .ret r w1 =>
      match runCalls cs w1 with
      | .ret rs w2 => .ret (r :: rs) w2
      | .abort w2 => .abort w2
      | .blocked w2 => .blocked w2
    | .abort w1 => .abort w1
    | .blocked w1 => .blocked w1

/-- An action that only observes the token at `p` on entry and combines what it sees into
the user state with `k`. -/
def observeToken {σ : Type} (p : Nat) (k : Bool → σ → σ) : Action σ :=
  fun v => .ret () { v with user := k (v.once p) v.user }

/-- User state of a program that watches a call made from inside a running initialiser. -/
structure Probe where
  initDone : Bool               -- the initialiser has made its effect
  innerStatus : Option Int      -- status returned by the call made inside the initialiser
  seenDone : Option Bool        -- value of `initDone` at the moment that call returned
deriving DecidableEq

/-- An initialiser that first calls `pthread_once(p, g)` itself, `g` being an empty routine,
notes the status and whether its own effect had been made when that call returned, and then
makes its effect. -/
def reentrant (self : Tid) (p : Nat) : Action Probe :=
  fun w =>
    match pthread_once self (some p) (some (fun v => Outcome.ret () v)) w with
    | .ret r w1 =>
      .ret () { w1 with user := { initDone := true, innerStatus := some r,
                                  seenDone := some w1.user.initDone } }
    | .abort w1 => .abort w1
    | .blocked w1 => .blocked w1

/-! ## Concurrent callers -/

/-- Program points of a thread inside `pthread_once`, after the sanity checks have passed:
the statement it executes next, or how it has left the function. -/
inductive PC where
  | lock                       -- line 78: nxrmutex_lock(&g_lock)
  | test                       -- line 80: if (!*once_control)
  | mark                       -- line 82: *once_control = true
  | init                       -- line 86: init_routine()
  | unlockFirst                -- line 87: nxrmutex_unlock(&g_lock); return OK
  | unlockLater                -- line 95: nxrmutex_unlock(&g_lock); return OK
  | returned (status : Int)    -- the call has returned
  | exited                     -- init_routine left by a non-local exit
deriving DecidableEq

/-- A system of `threads` threads, numbered from 0, each of which has called `pthread_once`
with the same non-null arguments; `pc t` is the program point of thread `t`. -/
structure Sys (σ : Type) where
  threads : Nat
  pc : Tid → PC
  w : World σ

/-- Program point of thread `t` replaced by `c`. -/
def setPC (pc : Tid → PC) (t : Tid) (c : PC) : Tid → PC :=
  fun u => if u = t then c else pc u

/-- One statement of `pthread_once(p, f)` executed by thread `t`, or `none` when thread `t`
cannot move: it is not a thread of the system, it has left the function, or it waits for the
lock.  The initialisation routine runs as one step. -/
def step {σ : Type} (p : Nat) (f : Action σ) (t : Tid) (s : Sys σ) : Option (Sys σ) :=
  if t < s.threads then
    match s.pc t with
    | .lock =>
      match nxrmutex_lock t s.w.g_lock with
      | none => none
      | some m => some { s with pc := setPC s.pc t .test, w := { s.w with g_lock := m } }
    | .test =>
      if s.w.once p = false then some { s with pc := setPC s.pc t .mark }
      else some { s with pc := setPC s.pc t .unlockLater }
    | .mark =>
      some { s with pc := setPC s.pc t .init, w := { s.w with once := setOnce s.w.once p } }
    | .init =>
      match f s.w with
      | .ret () w3 => some { s with pc := setPC s.pc t .unlockFirst, w := w3 }
      | .abort w3 => some { s with pc := setPC s.pc t .exited, w := w3 }
      | .blocked _ => none
    | .unlockFirst =>
      some { s with pc := setPC s.pc t (.returned OK),
                    w := { s.w with g_lock := nxrmutex_unlock t s.w.g_lock } }
    | .unlockLater =>
      some { s with pc := setPC s.pc t (.returned OK),
                    w := { s.w with g_lock := nxrmutex_unlock t s.w.g_lock } }
    | .returned _ => none
    | .exited => none
  else none

/-- Execution under a schedule: the scheduler picks the threads of `sched` in turn; a picked
thread that cannot move leaves the system as it is. -/
def run {σ : Type} (p : Nat) (f : Action σ) : List Tid → Sys σ → Sys σ
  | [], s => s
  | t :: ts, s =>
    match step p f t s with
    | some s1 => run p f ts s1
    | none => run p f ts s

/-- Initial system: `n` threads at the entry of the function in world `w`. -/
def initSys {σ : Type} (n : Nat) (w : World σ) : Sys σ :=
  { threads := n, pc := fun _ => .lock, w := w }

/-- Status with which a thread has returned, if it has. -/
def PC.status : PC → Option Int
  | .returned r => some r
  | _ => none

/-- All calls have returned. -/
def allReturned {σ : Type} (s : Sys σ) : Prop :=
  ∀ t, t < s.threads → (s.pc t).status.isSome = true

/-- All calls have returned the status OK. -/
def allReturnedOK {σ : Type} (s : Sys σ) : Prop :=
  ∀ t, t < s.threads → s.pc t = .returned OK

/-- Program points at which a thread holds the lock. -/
def PC.critical : PC → Bool
  | .test => true
  | .mark => true
  | .init => true
  | .unlockFirst => true
  | .unlockLater => true
  | _ => false

/-- Largest number of steps that a thread at this program point can still take. -/
def PC.remaining : PC → Nat
  | .lock => 5
  | .test => 4
  | .mark => 3
  | .init => 2
  | .unlockFirst => 1
  | .unlockLater => 1
  | .returned _ => 0
  | .exited => 0

/-- Bound on the number of steps that the threads of the system can still take together. -/
def remainingSteps {σ : Type} (s : Sys σ) : Nat :=
  Finset.sum (Finset.range s.threads) (fun t => (s.pc t).remaining)

/-- Invariant of the system in which every thread calls `pthread_once(p, incr)`, the counter
starting at 0: a thread inside the critical section is the single holder of the lock; the lock
is free when no thread is inside; no thread has left otherwise than by returning OK; while the
token is pending the counter is 0 and no thread is past line 82; once the token is set no thread
is at line 82, and the counter is 0 if a thread is about to run the initialiser and 1 if none
is. -/
def OnceInv (p : Nat) (s : Sys Nat) : Prop :=
  (∀ t, t < s.threads → (s.pc t).critical = true → s.w.g_lock = ⟨some t, 1⟩)
  ∧ ((∀ t, t < s.threads → (s.pc t).critical = false) → s.w.g_lock = ⟨none, 0⟩)
  ∧ (∀ t, t < s.threads → (s.pc t).critical = true ∨ s.pc t = .lock ∨ s.pc t = .returned OK)
  ∧ (s.w.once p = false →
      s.w.user = 0 ∧ ∀ t, t < s.threads → s.pc t = .lock ∨ s.pc t = .test ∨ s.pc t = .mark)
  ∧ (s.w.once p = true →
      (∀ t, t < s.threads → s.pc t ≠ .mark)
      ∧ ((∃ t, t < s.threads ∧ s.pc t = .init) → s.w.user = 0)
      ∧ ((∀ t, t < s.threads → s.pc t ≠ .init) → s.w.user = 1))

/-! ## Further notions for the statements on the lock and on several tokens -/

/-- An initialisation routine that leaves at once by a non-local exit, for instance by ending
its thread, without changing anything. -/
def exitNow {σ : Type} : Action σ :=
  fun v => .abort v

/-- An action that only observes how often thread `self` holds the lock on entry and combines
what it sees into the user state with `k`. -/
def observeHold {σ : Type} (self : Tid) (k : Nat → σ → σ) : Action σ :=
  fun v => .ret () { v with user := k (holdCount self v.g_lock) v.user }

/-- An action leaves the token at `q` as it found it, however the action ends. -/
def LeavesToken {σ : Type} (q : Nat) (f : Action σ) : Prop :=
  ∀ v : World σ, (f v).world.once q = v.once q

/-! ## Basic facts about the lock -/

theorem lock_of_free (self : Tid) (m : RMutex) (h : m.holder = none) :
    nxrmutex_lock self m = some ⟨some self, 1⟩ := by
  simp [nxrmutex_lock, h]

theorem lock_of_held (self : Tid) (m : RMutex) (h : m.holder = some self) :
    nxrmutex_lock self m = some ⟨some self, m.count + 1⟩ := by
  simp [nxrmutex_lock, h]

theorem lock_some_iff (self : Tid) (m : RMutex) :
    (∃ m1, nxrmutex_lock self m = some m1) ↔ (m.holder = none ∨ m.holder = some self) := by
  unfold nxrmutex_lock
  cases h : m.holder with
  | none => simp
  | some t =>
    by_cases ht : t = self
    · simp [ht]
    · simp [ht]

theorem holdCount_lock (self : Tid) (m m1 : RMutex) (h : nxrmutex_lock self m = some m1) :
    m1.holder = some self ∧ m1.count = holdCount self m + 1 := by
  unfold nxrmutex_lock at h
  cases hh : m.holder with
  | none =>
    rw [hh] at h
    simp at h
    subst h
    simp [holdCount, hh]
  | some t =>
    rw [hh] at h
    by_cases ht : t = self
    · simp [ht] at h
      subst h
      simp [holdCount, hh, ht]
    · simp [ht] at h

theorem holdCount_unlock (self : Tid) (m : RMutex) :
    holdCount self (nxrmutex_unlock self m) = holdCount self m - 1 := by
  unfold nxrmutex_unlock holdCount
  by_cases hh : m.holder = some self
  · by_cases hc : m.count ≤ 1
    · simp [hh, hc]
    · simp [hh, hc]
  · simp [hh]

/-- The lock stays available to a thread that takes it and releases it again. -/
theorem lock_unlock_available (self : Tid) (m m1 : RMutex)
    (h : nxrmutex_lock self m = some m1) :
    ∃ m2, nxrmutex_lock self (nxrmutex_unlock self m1) = some m2 := by
  rw [lock_some_iff]
  have h1 := (holdCount_lock self m m1 h).1
  unfold nxrmutex_unlock
  by_cases hc : m1.count ≤ 1
  · simp [h1, hc]
  · simp [h1, hc]

/-! ## The paths of `pthread_once` -/

theorem pthread_once_null {σ : Type} (self : Tid) (once_control : Option Nat)
    (init_routine : Option (Action σ)) (w : World σ)
    (h : once_control = none ∨ init_routine = none) :
    pthread_once self once_control init_routine w = .ret EINVAL w := by
  rcases h with h | h
  · subst h
    rfl
  · subst h
    cases once_control <;> rfl

theorem pthread_once_waits {σ : Type} (self : Tid) (p : Nat) (f : Action σ) (w : World σ)
    (h : nxrmutex_lock self w.g_lock = none) :
    pthread_once self (some p) (some f) w = .blocked w := by
  simp [pthread_once, h]

theorem pthread_once_marked {σ : Type} (self : Tid) (p : Nat) (f : Action σ) (w : World σ)
    (m : RMutex)
    (hlock : nxrmutex_lock self w.g_lock = some m) (hdone : w.once p = true) :
    pthread_once self (some p) (some f) w
      = .ret OK (afterUnlock self { w with g_lock := m }) := by
  simp [pthread_once, hlock, hdone, afterUnlock]

theorem pthread_once_pending {σ : Type} (self : Tid) (p : Nat) (f : Action σ) (w : World σ)
    (m : RMutex)
    (hlock : nxrmutex_lock self w.g_lock = some m) (hpend : w.once p = false) :
    pthread_once self (some p) (some f) w
      = match f (atInit p m w) with
        | .ret () w3 => .ret OK (afterUnlock self w3)
        | .abort w3 => .abort w3
        | .blocked w3 => .blocked w3 := by
  simp [pthread_once, hlock, hpend, afterUnlock, atInit]

theorem atInit_once {σ : Type} (p : Nat) (m : RMutex) (w : World σ) :
    (atInit p m w).once p = true := by
  simp [atInit, setOnce]

/-! ## C1: the first call on a pending token -/

/-- C1: a call by thread `self` on a non-null token `p` whose flag is false, with a non-null
action `f` that leaves the token alone and returns, in a world where the lock is available to
the caller, returns OK in the world `w3` that one run of `f` produced from the world at line 86,
with the lock released once; the token flag is true there. -/
theorem pthread_once_first_call {σ : Type} (self : Tid) (p : Nat) (f : Action σ)
    (w w3 : World σ) (m : RMutex)
    (hlock : nxrmutex_lock self w.g_lock = some m)
    (hpend : w.once p = false)
    (htok : KeepsToken p f)
    (hret : f (atInit p m w) = .ret () w3) :
    pthread_once self (some p) (some f) w = .ret OK (afterUnlock self w3)
      ∧ (pthread_once self (some p) (some f) w).status = some 0
      ∧ (pthread_once self (some p) (some f) w).world.once p = true
      ∧ (pthread_once self (some p) (some f) w).world.user = w3.user := by
  have h := pthread_once_pending self p f w m hlock hpend
  rw [hret] at h
  have ht : w3.once p = true := by
    have := htok (atInit p m w) (atInit_once p m w)
    rw [hret] at this
    exact this
  rw [h]
  exact ⟨rfl, rfl, ht, rfl⟩

/-- Witness of C1: thread 1 calls on the pending token at address 0 with the counter increment,
starting from counter 5 and a free lock. -/
theorem pthread_once_first_call_witness :
    pthread_once 1 (some 0) (some incr)
        { once := fun _ => false, g_lock := NXRMUTEX_INITIALIZER, user := 5 }
      = .ret OK (afterUnlock 1
          { once := setOnce (fun _ => false) 0, g_lock := ⟨some 1, 1⟩, user := 6 })
    ∧ (pthread_once 1 (some 0) (some incr)
        { once := fun _ => false, g_lock := NXRMUTEX_INITIALIZER, user := 5 }).status = some 0
    ∧ (pthread_once 1 (some 0) (some incr)
        { once := fun _ => false, g_lock := NXRMUTEX_INITIALIZER, user := 5 }).world.once 0 = true
    ∧ (pthread_once 1 (some 0) (some incr)
        { once := fun _ => false, g_lock := NXRMUTEX_INITIALIZER, user := 5 }).world.user = 6 :=
  pthread_once_first_call 1 0 incr
    { once := fun _ => false, g_lock := NXRMUTEX_INITIALIZER, user := 5 }
    { once := setOnce (fun _ => false) 0, g_lock := ⟨some 1, 1⟩, user := 6 }
    ⟨some 1, 1⟩ rfl rfl (fun _ h => h) rfl

/-! ## C2: calls on a completed token -/

/-- Successive calls of one thread on a completed token all return OK and change neither the
tokens, nor the user state, nor the hold count of the caller. -/
theorem runCalls_marked {σ : Type} (self : Tid) (p : Nat) (fs : List (Action σ)) :
    ∀ (w : World σ), (∃ m, nxrmutex_lock self w.g_lock = some m) → w.once p = true →
      ∃ wk, runCalls (fs.map (fun f => (⟨self, some p, some f⟩ : Call σ))) w
            = .ret (List.replicate fs.length OK) wk
          ∧ wk.once = w.once ∧ wk.user = w.user
          ∧ holdCount self wk.g_lock = holdCount self w.g_lock := by
  induction fs with
  | nil =>
    intro w _ _
    exact ⟨w, rfl, rfl, rfl, rfl⟩
  | cons f fs ih =>
    intro w hlock hdone
    obtain ⟨m, hm⟩ := hlock
    have h1 := pthread_once_marked self p f w m hm hdone
    have hav := lock_unlock_available self w.g_lock m hm
    have hc : holdCount self (nxrmutex_unlock self m) = holdCount self w.g_lock := by
      rw [holdCount_unlock]
      have := holdCount_lock self w.g_lock m hm
      simp [holdCount, this.1, this.2]
    obtain ⟨wk, hk, ho, hu, hh⟩ :=
      ih (afterUnlock self { w with g_lock := m }) hav hdone
    refine ⟨wk, ?_, ho, hu, ?_⟩
    · simp only [List.map_cons, runCalls, h1, hk, List.length_cons, List.replicate_succ]
    · rw [hh]
      exact hc

/-- C2: on a non-null token whose flag is already true, a call by thread `self` with any
non-null action `f`, the lock being available to the caller, returns OK whatever `f` is, with
the token flags, the user state and the hold count of the caller unchanged; and any sequence of
such calls, with any actions, returns OK every time with the same unchanged state. -/
theorem pthread_once_idempotent {σ : Type} (self : Tid) (p : Nat) (f : Action σ) (w : World σ)
    (m : RMutex)
    (hlock : nxrmutex_lock self w.g_lock = some m)
    (hdone : w.once p = true) :
    pthread_once self (some p) (some f) w = .ret OK (afterUnlock self { w with g_lock := m })
      ∧ (pthread_once self (some p) (some f) w).world.once = w.once
      ∧ (pthread_once self (some p) (some f) w).world.user = w.user
      ∧ holdCount self (pthread_once self (some p) (some f) w).world.g_lock
          = holdCount self w.g_lock
      ∧ ∀ fs : List (Action σ),
          ∃ wk, runCalls (fs.map (fun g => (⟨self, some p, some g⟩ : Call σ))) w
              = .ret (List.replicate fs.length OK) wk
            ∧ wk.once = w.once ∧ wk.user = w.user
            ∧ holdCount self wk.g_lock = holdCount self w.g_lock := by
  have h1 := pthread_once_marked self p f w m hlock hdone
  have hc : holdCount self (nxrmutex_unlock self m) = holdCount self w.g_lock := by
    rw [holdCount_unlock]
    have := holdCount_lock self w.g_lock m hlock
    simp [holdCount, this.1, this.2]
  rw [h1]
  exact ⟨rfl, rfl, rfl, hc, fun fs => runCalls_marked self p fs w ⟨m, hlock⟩ hdone⟩

/-- Witness of C2: thread 1 calls on the completed token at address 0 with an action that would
leave by a non-local exit if it were run; the lock is free and the counter is 5. -/
theorem pthread_once_idempotent_witness :
    (pthread_once 1 (some 0) (some (fun v => Outcome.abort v))
        { once := fun _ => true, g_lock := NXRMUTEX_INITIALIZER, user := (5 : Nat) }).status
      = some 0
    ∧ (pthread_once 1 (some 0) (some (fun v => Outcome.abort v))
        { once := fun _ => true, g_lock := NXRMUTEX_INITIALIZER, user := (5 : Nat) }).world.user
      = 5 :=
  have h := pthread_once_idempotent 1 0 (fun v => Outcome.abort v)
    { once := fun _ => true, g_lock := NXRMUTEX_INITIALIZER, user := (5 : Nat) }
    ⟨some 1, 1⟩ rfl rfl
  ⟨by rw [h.1]; rfl, h.2.2.1⟩

/-! ## C4: the scenario, in serial order -/

/-- With the lock free, a call on a completed token returns OK in the very same world. -/
theorem pthread_once_marked_free {σ : Type} (t : Tid) (p : Nat) (f : Action σ) (w : World σ)
    (hfree : w.g_lock = NXRMUTEX_INITIALIZER) (hdone : w.once p = true) :
    pthread_once t (some p) (some f) w = .ret OK w := by
  have hl : nxrmutex_lock t w.g_lock = some ⟨some t, 1⟩ := by
    rw [hfree]
    rfl
  rw [pthread_once_marked t p f w _ hl hdone]
  cases w with
  | mk once g_lock user =>
    simp only at hfree
    subst hfree
    simp [afterUnlock, nxrmutex_unlock, NXRMUTEX_INITIALIZER]

/-- With the lock free, calls by any threads on a completed token all return OK in the very
same world. -/
theorem runCalls_marked_free {σ : Type} (p : Nat) (f : Action σ) (w : World σ)
    (hfree : w.g_lock = NXRMUTEX_INITIALIZER) (hdone : w.once p = true) (ts : List Tid) :
    runCalls (ts.map (fun t => (⟨t, some p, some f⟩ : Call σ))) w
      = .ret (List.replicate ts.length OK) w := by
  induction ts with
  | nil => rfl
  | cons t ts ih =>
    simp only [List.map_cons, runCalls, pthread_once_marked_free t p f w hfree hdone, ih,
      List.length_cons, List.replicate_succ]

/-- With the lock free, a call on a pending token with the counter increment returns OK with the
token set, the counter one higher and the lock free again. -/
theorem pthread_once_incr_free (t : Tid) (p : Nat) (w : World Nat)
    (hfree : w.g_lock = NXRMUTEX_INITIALIZER) (hpend : w.once p = false) :
    pthread_once t (some p) (some incr) w
      = .ret OK { once := setOnce w.once p, g_lock := NXRMUTEX_INITIALIZER,
                  user := w.user + 1 } := by
  have hl : nxrmutex_lock t w.g_lock = some ⟨some t, 1⟩ := by
    rw [hfree]
    rfl
  rw [pthread_once_pending t p incr w _ hl hpend]
  simp [incr, atInit, afterUnlock, nxrmutex_unlock, NXRMUTEX_INITIALIZER]

/-- C4: starting with the token at `p` false, the counter 0 and the lock free, `n ≥ 2` calls
`pthread_once(p, incr)` made one after another by the threads `tids` all return OK and end with
counter 1 and the token true; the first call alone produces that final world, and the later
calls return in it without changing it. -/
theorem scenario_serial (p : Nat) (tids : List Tid) (w : World Nat)
    (hn : 2 ≤ tids.length)
    (hfree : w.g_lock = NXRMUTEX_INITIALIZER)
    (hpend : w.once p = false)
    (hzero : w.user = 0) :
    ∃ (t : Tid) (ts : List Tid) (w1 : World Nat),
      tids = t :: ts
      ∧ runCalls (tids.map (fun u => (⟨u, some p, some incr⟩ : Call Nat))) w
          = .ret (List.replicate tids.length OK) w1
      ∧ w1.user = 1 ∧ w1.once p = true
      ∧ pthread_once t (some p) (some incr) w = .ret OK w1
      ∧ runCalls (ts.map (fun u => (⟨u, some p, some incr⟩ : Call Nat))) w1
          = .ret (List.replicate ts.length OK) w1 := by
  cases tids with
  | nil => simp at hn
  | cons t ts =>
    have h1 := pthread_once_incr_free t p w hfree hpend
    have hd : (setOnce w.once p) p = true := by simp [setOnce]
    have h2 := runCalls_marked_free p incr
      { once := setOnce w.once p, g_lock := NXRMUTEX_INITIALIZER, user := w.user + 1 }
      rfl hd ts
    refine ⟨t, ts, _, rfl, ?_, ?_, hd, h1, h2⟩
    · simp only [List.map_cons, runCalls, h1, h2, List.length_cons, List.replicate_succ]
    · simp [hzero]

/-- Witness of C4: threads 1 and 2 call in turn on the token at address 0. -/
theorem scenario_serial_witness :
    ∃ (t : Tid) (ts : List Tid) (w1 : World Nat),
      [1, 2] = t :: ts
      ∧ runCalls ([1, 2].map (fun u => (⟨u, some 0, some incr⟩ : Call Nat)))
            { once := fun _ => false, g_lock := NXRMUTEX_INITIALIZER, user := 0 }
          = .ret (List.replicate [1, 2].length OK) w1
      ∧ w1.user = 1 ∧ w1.once 0 = true
      ∧ pthread_once t (some 0) (some incr)
            { once := fun _ => false, g_lock := NXRMUTEX_INITIALIZER, user := 0 } = .ret OK w1
      ∧ runCalls (ts.map (fun u => (⟨u, some 0, some incr⟩ : Call Nat))) w1
          = .ret (List.replicate ts.length OK) w1 :=
  scenario_serial 0 [1, 2]
    { once := fun _ => false, g_lock := NXRMUTEX_INITIALIZER, user := 0 }
    (by decide) rfl rfl rfl

/-! ## C5 and C6: the status and the error path -/

/-- C5: the status of a call is EINVAL exactly when the token pointer or the action pointer is
null, and OK otherwise: a call with a null pointer returns EINVAL; a call with two non-null
pointers for which the lock is available returns OK when the token is already set, whatever the
action is, and when the token is pending and the action returns, whatever the action does to the
world; no call returns any other status, and the two statuses differ. -/
theorem pthread_once_status {σ : Type} (self : Tid) (once_control : Option Nat)
    (init_routine : Option (Action σ)) (w : World σ) :
    ((once_control = none ∨ init_routine = none) →
        (pthread_once self once_control init_routine w).status = some EINVAL)
    ∧ (∀ (p : Nat) (f : Action σ) (m : RMutex),
        once_control = some p → init_routine = some f →
        nxrmutex_lock self w.g_lock = some m →
        (w.once p = true ∨ ∃ w3, f (atInit p m w) = .ret () w3) →
        (pthread_once self once_control init_routine w).status = some OK)
    ∧ (∀ r : Int, (pthread_once self once_control init_routine w).status = some r →
        (r = EINVAL ∨ r = OK)
        ∧ (r = EINVAL ↔ (once_control = none ∨ init_routine = none)))
    ∧ EINVAL ≠ OK := by
  have hne : EINVAL ≠ OK := by decide
  refine ⟨?_, ?_, ?_, hne⟩
  · intro h
    rw [pthread_once_null self once_control init_routine w h]
    rfl
  · intro p f m hp hf hm hcase
    subst hp
    subst hf
    cases hflag : w.once p with
    | true =>
      rw [pthread_once_marked self p f w m hm hflag]
      rfl
    | false =>
      rcases hcase with h | ⟨w3, h3⟩
      · rw [hflag] at h
        cases h
      · rw [pthread_once_pending self p f w m hm hflag, h3]
        rfl
  · intro r hr
    cases once_control with
    | none =>
      rw [pthread_once_null self none init_routine w (Or.inl rfl)] at hr
      simp only [Outcome.status, Option.some.injEq] at hr
      subst hr
      simp
    | some p =>
      cases init_routine with
      | none =>
        rw [pthread_once_null self (some p) none w (Or.inr rfl)] at hr
        simp only [Outcome.status, Option.some.injEq] at hr
        subst hr
        simp
      | some f =>
        have hok : r = OK := by
          cases hl : nxrmutex_lock self w.g_lock with
          | none =>
            rw [pthread_once_waits self p f w hl] at hr
            simp [Outcome.status] at hr
          | some m =>
            cases hflag : w.once p with
            | true =>
              rw [pthread_once_marked self p f w m hl hflag] at hr
              simp only [Outcome.status, Option.some.injEq] at hr
              exact hr.symm
            | false =>
              rw [pthread_once_pending self p f w m hl hflag] at hr
              cases hf : f (atInit p m w) with
              | ret u w3 =>
                rw [hf] at hr
                simp only [Outcome.status, Option.some.injEq] at hr
                exact hr.symm
              | abort w3 =>
                rw [hf] at hr
                simp [Outcome.status] at hr
              | blocked w3 =>
                rw [hf] at hr
                simp [Outcome.status] at hr
        subst hok
        refine ⟨Or.inr rfl, ?_⟩
        constructor
        · intro h
          exact absurd h.symm hne
        · intro h
          rcases h with h | h <;> cases h

/-- Witness of C5: a null token with a non-null action gives EINVAL, and the same action with
the pending token at address 0 gives OK. -/
theorem pthread_once_status_witness :
    (pthread_once 1 none (some incr)
        { once := fun _ => false, g_lock := NXRMUTEX_INITIALIZER, user := 0 }).status
      = some EINVAL
    ∧ (pthread_once 1 (some 0) (some incr)
        { once := fun _ => false, g_lock := NXRMUTEX_INITIALIZER, user := 0 }).status
      = some OK :=
  ⟨(pthread_once_status 1 none (some incr)
      { once := fun _ => false, g_lock := NXRMUTEX_INITIALIZER, user := 0 }).1 (Or.inl rfl),
   (pthread_once_status 1 (some 0) (some incr)
      { once := fun _ => false, g_lock := NXRMUTEX_INITIALIZER, user := 0 }).2.1
      0 incr ⟨some 1, 1⟩ rfl rfl rfl (Or.inr ⟨_, rfl⟩)⟩

/-- C6: a call with a null token or a null action returns EINVAL in the world it was called in:
every token flag, the user state and the lock are as before, so that a pending token stays
pending, the action has not been run, and the lock has been neither taken nor released. -/
theorem pthread_once_invalid_untouched {σ : Type} (self : Tid) (once_control : Option Nat)
    (init_routine : Option (Action σ)) (w : World σ)
    (h : once_control = none ∨ init_routine = none) :
    pthread_once self once_control init_routine w = .ret EINVAL w
      ∧ (pthread_once self once_control init_routine w).world.once = w.once
      ∧ (pthread_once self once_control init_routine w).world.user = w.user
      ∧ (pthread_once self once_control init_routine w).world.g_lock = w.g_lock
      ∧ (∀ p, once_control = some p → w.once p = false →
          (pthread_once self once_control init_routine w).world.once p = false) := by
  have h1 := pthread_once_null self once_control init_routine w h
  rw [h1]
  exact ⟨rfl, rfl, rfl, rfl, fun _ _ hp => hp⟩

/-- Witness of C6: the pending token at address 0 passed with a null action, while thread 2
holds the lock, and a null token passed with the counter increment. -/
theorem pthread_once_invalid_untouched_witness :
    (pthread_once 1 (some 0) (none : Option (Action Nat))
        { once := fun _ => false, g_lock := ⟨some 2, 1⟩, user := 0 }).world.once 0 = false
    ∧ (pthread_once 1 none (some incr)
        { once := fun _ => false, g_lock := ⟨some 2, 1⟩, user := 0 }).world.user = 0 :=
  ⟨(pthread_once_invalid_untouched 1 (some 0) (none : Option (Action Nat))
      { once := fun _ => false, g_lock := ⟨some 2, 1⟩, user := 0 } (Or.inr rfl)).2.2.2.2
      0 rfl rfl,
   (pthread_once_invalid_untouched 1 none (some incr)
      { once := fun _ => false, g_lock := ⟨some 2, 1⟩, user := 0 } (Or.inl rfl)).2.2.1⟩

/-! ## C9: a set token stays set -/

/-- A call leaves a set token set, however the call ends. -/
theorem pthread_once_keeps_token {σ : Type} (self : Tid) (once_control : Option Nat)
    (init_routine : Option (Action σ)) (p : Nat) (w : World σ)
    (hact : ∀ g, init_routine = some g → KeepsToken p g)
    (hset : w.once p = true) :
    (pthread_once self once_control init_routine w).world.once p = true := by
  cases once_control with
  | none =>
    rw [pthread_once_null self none init_routine w (Or.inl rfl)]
    exact hset
  | some q =>
    cases init_routine with
    | none =>
      rw [pthread_once_null self (some q) none w (Or.inr rfl)]
      exact hset
    | some f =>
      cases hl : nxrmutex_lock self w.g_lock with
      | none =>
        rw [pthread_once_waits self q f w hl]
        exact hset
      | some m =>
        cases hflag : w.once q with
        | true =>
          rw [pthread_once_marked self q f w m hl hflag]
          exact hset
        | false =>
          rw [pthread_once_pending self q f w m hl hflag]
          have hin : (atInit q m w).once p = true := by
            simp [atInit, setOnce, hset]
          have hk := hact f rfl (atInit q m w) hin
          cases hf : f (atInit q m w) with
          | ret u w3 =>
            rw [hf] at hk
            exact hk
          | abort w3 =>
            rw [hf] at hk
            exact hk
          | blocked w3 =>
            rw [hf] at hk
            exact hk

/-- A sequence of calls leaves a set token set. -/
theorem runCalls_keeps_token {σ : Type} (p : Nat) (cs : List (Call σ)) :
    ∀ (w : World σ), (∀ c ∈ cs, ∀ g, c.init_routine = some g → KeepsToken p g) →
      w.once p = true → (runCalls cs w).world.once p = true := by
  induction cs with
  | nil =>
    intro w _ hset
    exact hset
  | cons c cs ih =>
    intro w hact hset
    have h1 := pthread_once_keeps_token c.tid c.once_control c.init_routine p w
      (hact c (List.mem_cons_self c cs)) hset
    have hrest : ∀ d ∈ cs, ∀ g, d.init_routine = some g → KeepsToken p g :=
      fun d hd => hact d (List.mem_cons_of_mem c hd)
    simp only [runCalls]
    cases hc : pthread_once c.tid c.once_control c.init_routine w with
    | ret r w1 =>
      rw [hc] at h1
      have h2 := ih w1 hrest h1
      simp only []
      cases hr : runCalls cs w1 with
      | ret rs w2 =>
        rw [hr] at h2
        exact h2
      | abort w2 =>
        rw [hr] at h2
        exact h2
      | blocked w2 =>
        rw [hr] at h2
        exact h2
    | abort w1 =>
      rw [hc] at h1
      exact h1
    | blocked w1 =>
      rw [hc] at h1
      exact h1

/-- The flag after a sequence of calls followed by further calls, when it is set after the
first sequence. -/
theorem runCalls_append_keeps_token {σ : Type} (p : Nat) (cs ds : List (Call σ)) :
    ∀ (w : World σ), (∀ c ∈ ds, ∀ g, c.init_routine = some g → KeepsToken p g) →
      (runCalls cs w).world.once p = true → (runCalls (cs ++ ds) w).world.once p = true := by
  induction cs with
  | nil =>
    intro w hact hset
    exact runCalls_keeps_token p ds w hact hset
  | cons c cs ih =>
    intro w hact hset
    simp only [List.cons_append, runCalls] at hset ⊢
    cases hc : pthread_once c.tid c.once_control c.init_routine w with
    | ret r w1 =>
      rw [hc] at hset
      simp only [] at hset ⊢
      have hset1 : (runCalls cs w1).world.once p = true := by
        cases hr : runCalls cs w1 with
        | ret rs w2 =>
          rw [hr] at hset
          exact hset
        | abort w2 =>
          rw [hr] at hset
          exact hset
        | blocked w2 =>
          rw [hr] at hset
          exact hset
      have h2 := ih w1 hact hset1
      cases hr : runCalls (cs ++ ds) w1 with
      | ret rs w2 =>
        rw [hr] at h2
        exact h2
      | abort w2 =>
        rw [hr] at h2
        exact h2
      | blocked w2 =>
        rw [hr] at h2
        exact h2
    | abort w1 =>
      rw [hc] at hset
      exact hset
    | blocked w1 =>
      rw [hc] at hset
      exact hset

/-- C9: a call with any arguments, made by any thread in any state of the lock, with an action
that leaves a set token at `p` set, ends with the flag at `p` true if it was true before,
however the call ends; and along a sequence of calls whose actions are of that kind, once the
flag is true after some calls it is true after any further calls, so that it changes at most
once, from false to true. -/
theorem token_monotone {σ : Type} (p : Nat) (self : Tid) (once_control : Option Nat)
    (init_routine : Option (Action σ)) (w : World σ) (cs ds : List (Call σ))
    (hact : ∀ g, init_routine = some g → KeepsToken p g)
    (hacts : ∀ c ∈ ds, ∀ g, c.init_routine = some g → KeepsToken p g) :
    (w.once p = true → (pthread_once self once_control init_routine w).world.once p = true)
    ∧ ((runCalls cs w).world.once p = true → (runCalls (cs ++ ds) w).world.once p = true) :=
  ⟨pthread_once_keeps_token self once_control init_routine p w hact,
   runCalls_append_keeps_token p cs ds w hacts⟩

/-- Witness of C9: after a first call on the pending token at address 0 the flag is true, and it
is still true after two more calls, one of them on the token at address 1. -/
theorem token_monotone_witness :
    (pthread_once 1 (some 0) (some incr)
        { once := fun a => decide (a = 0), g_lock := NXRMUTEX_INITIALIZER, user := 0 }).world.once 0
      = true
    ∧ (runCalls ([⟨1, some 0, some incr⟩] ++ [⟨2, some 1, some incr⟩, ⟨1, some 0, some incr⟩])
        { once := fun _ => false, g_lock := NXRMUTEX_INITIALIZER, user := 0 }).world.once 0
      = true :=
  ⟨(token_monotone 0 1 (some 0) (some incr)
      { once := fun a => decide (a = 0), g_lock := NXRMUTEX_INITIALIZER, user := 0 } [] []
      (fun g hg v hv => by cases hg; exact hv)
      (fun c hc => by cases hc)).1 rfl,
   (token_monotone 0 1 (some 0) (some incr)
      { once := fun _ => false, g_lock := NXRMUTEX_INITIALIZER, user := 0 }
      [⟨1, some 0, some incr⟩] [⟨2, some 1, some incr⟩, ⟨1, some 0, some incr⟩]
      (fun g hg v hv => by cases hg; exact hv)
      (fun c hc g hg v hv => by
        simp only [List.mem_cons, List.mem_singleton, List.not_mem_nil, or_false] at hc
        rcases hc with hc | hc <;> subst hc <;> cases hg <;> exact hv)).2 rfl⟩

/-! ## C10: the lock is released as often as it is taken -/

/-- C10: when the action, if there is one, returns with the caller holding the lock as often as
on entry, a call of `pthread_once` that returns does so with the hold count of the calling
thread as it was before the call, on each path (null argument, pending token, completed token);
and the call, used as a statement inside another action, is again an action of that kind, so
that the same holds for calls nested in actions to any depth. -/
theorem lock_balance {σ : Type} (self : Tid) (once_control : Option Nat)
    (init_routine : Option (Action σ))
    (hact : ∀ g, init_routine = some g → KeepsHold self g) :
    (∀ (w w1 : World σ) (r : Int), pthread_once self once_control init_routine w = .ret r w1 →
        holdCount self w1.g_lock = holdCount self w.g_lock)
    ∧ KeepsHold self (callOnce self once_control init_routine) := by
  have main : ∀ (w w1 : World σ) (r : Int),
      pthread_once self once_control init_routine w = .ret r w1 →
      holdCount self w1.g_lock = holdCount self w.g_lock := by
    intro w w1 r hr
    cases once_control with
    | none =>
      rw [pthread_once_null self none init_routine w (Or.inl rfl)] at hr
      cases hr
      rfl
    | some q =>
      cases init_routine with
      | none =>
        rw [pthread_once_null self (some q) none w (Or.inr rfl)] at hr
        cases hr
        rfl
      | some f =>
        cases hl : nxrmutex_lock self w.g_lock with
        | none =>
          rw [pthread_once_waits self q f w hl] at hr
          cases hr
        | some m =>
          have hm := holdCount_lock self w.g_lock m hl
          have hcm : holdCount self m = holdCount self w.g_lock + 1 := by
            simp [holdCount, hm.1, hm.2]
          cases hflag : w.once q with
          | true =>
            rw [pthread_once_marked self q f w m hl hflag] at hr
            cases hr
            simp only [afterUnlock]
            rw [holdCount_unlock, hcm]
            rfl
          | false =>
            rw [pthread_once_pending self q f w m hl hflag] at hr
            cases hf : f (atInit q m w) with
            | ret u w3 =>
              rw [hf] at hr
              cases hr
              have hk := hact f rfl (atInit q m w) w3 hf
              simp only [afterUnlock]
              rw [holdCount_unlock, hk]
              simp only [atInit]
              rw [hcm]
              rfl
            | abort w3 =>
              rw [hf] at hr
              cases hr
            | blocked w3 =>
              rw [hf] at hr
              cases hr
  refine ⟨main, ?_⟩
  intro v v3 hv
  unfold callOnce at hv
  cases hc : pthread_once self once_control init_routine v with
  | ret r w1 =>
    rw [hc] at hv
    cases hv
    exact main v v3 r hc
  | abort w1 =>
    rw [hc] at hv
    cases hv
  | blocked w1 =>
    rw [hc] at hv
    cases hv

/-- Witness of C10: thread 1, already holding the lock twice, calls on the pending token at
address 0 with an action that itself calls `pthread_once` on the pending token at address 1 with
the counter increment; the outer call returns with the lock held twice. -/
theorem lock_balance_witness :
    ∃ w1, pthread_once 1 (some 0) (some (callOnce 1 (some 1) (some incr)))
            { once := fun _ => false, g_lock := ⟨some 1, 2⟩, user := 0 } = .ret OK w1
      ∧ w1.user = 1
      ∧ holdCount 1 w1.g_lock = holdCount 1 (⟨some 1, 2⟩ : RMutex) :=
  ⟨_, rfl, rfl,
    (lock_balance 1 (some 0) (some (callOnce 1 (some 1) (some incr)))
      (fun g hg => by
        cases hg
        exact (lock_balance 1 (some 1) (some incr)
          (fun g hg v v3 hv => by cases hg; cases hv; rfl)).2)).1
      { once := fun _ => false, g_lock := ⟨some 1, 2⟩, user := 0 } _ OK rfl⟩

/-! ## C7: the flag is set before the action runs -/

/-- A call on a completed token by a thread that already holds the lock returns OK in the very
same world, whatever the action is. -/
theorem pthread_once_marked_held {σ : Type} (self : Tid) (p : Nat) (g : Action σ) (v : World σ)
    (hheld : 0 < holdCount self v.g_lock) (hdone : v.once p = true) :
    pthread_once self (some p) (some g) v = .ret OK v := by
  have hh : v.g_lock.holder = some self := by
    by_contra hne
    simp [holdCount, hne] at hheld
  have hcnt : 0 < v.g_lock.count := by
    simpa [holdCount, hh] using hheld
  rw [pthread_once_marked self p g v _ (lock_of_held self v.g_lock hh) hdone]
  cases v with
  | mk once g_lock user =>
    cases g_lock with
    | mk holder count =>
      simp only at hh hcnt
      subst hh
      have hc : ¬ (count + 1 ≤ 1) := by omega
      simp [afterUnlock, nxrmutex_unlock, hc]

/-- C7: in a call by thread `self` on a pending token `p`, the lock being available, the flag
is already true when the action starts: an action that only observes the flag sees true.
Consequently, for an action made of a part `before`, then the statement `pthread_once(p, g)`
with any non-null `g`, then a part `after`, where `before` returns leaving the token and its
hold on the lock alone and `after` returns: the inner call returns OK at once in the world it was
made in, so `g` is not run; the outer call returns OK in the world that `before` and `after`,
each run once, produced. -/
theorem flag_before_run {σ : Type} (self : Tid) (p : Nat) (before after g : Action σ)
    (w v w3 : World σ) (m : RMutex)
    (hlock : nxrmutex_lock self w.g_lock = some m)
    (hpend : w.once p = false)
    (hbefore : before (atInit p m w) = .ret () v)
    (htok : KeepsToken p before)
    (hhold : KeepsHold self before)
    (hafter : after v = .ret () w3) :
    (atInit p m w).once p = true
    ∧ (∀ k : Bool → σ → σ,
        (pthread_once self (some p) (some (observeToken p k)) w).world.user = k true w.user)
    ∧ pthread_once self (some p) (some g) v = .ret OK v
    ∧ pthread_once self (some p)
        (some (seqAction before (seqAction (callOnce self (some p) (some g)) after))) w
        = .ret OK (afterUnlock self w3) := by
  have hv : v.once p = true := by
    have := htok (atInit p m w) (atInit_once p m w)
    rw [hbefore] at this
    exact this
  have hheld : 0 < holdCount self v.g_lock := by
    rw [hhold (atInit p m w) v hbefore]
    have hm := holdCount_lock self w.g_lock m hlock
    simp [atInit, holdCount, hm.1, hm.2]
  have hinner := pthread_once_marked_held self p g v hheld hv
  refine ⟨atInit_once p m w, ?_, hinner, ?_⟩
  · intro k
    rw [pthread_once_pending self p (observeToken p k) w m hlock hpend]
    simp [observeToken, atInit, setOnce, afterUnlock, Outcome.world]
  · rw [pthread_once_pending self p _ w m hlock hpend]
    simp only [seqAction, callOnce, hbefore, hinner, hafter]

/-- Witness of C7: thread 1 calls on the pending token at address 0 with an action that
increments the counter, calls `pthread_once` on the same token with the counter increment, and
returns; the counter ends at 1. -/
theorem flag_before_run_witness :
    pthread_once 1 (some 0)
        (some (seqAction incr (seqAction (callOnce 1 (some 0) (some incr))
          (fun v => Outcome.ret () v))))
        { once := fun _ => false, g_lock := NXRMUTEX_INITIALIZER, user := 0 }
      = .ret OK (afterUnlock 1
          { once := setOnce (fun _ => false) 0, g_lock := ⟨some 1, 1⟩, user := 1 }) :=
  (flag_before_run 1 0 incr (fun v => Outcome.ret () v) incr
    { once := fun _ => false, g_lock := NXRMUTEX_INITIALIZER, user := 0 }
    { once := setOnce (fun _ => false) 0, g_lock := ⟨some 1, 1⟩, user := 1 }
    { once := setOnce (fun _ => false) 0, g_lock := ⟨some 1, 1⟩, user := 1 }
    ⟨some 1, 1⟩ rfl rfl rfl (fun _ h => h) (fun v v3 hv => by cases hv; rfl) rfl).2.2.2

/-! ## C8: return of a call made inside the running initialiser -/

/-- C8, the code at the failing input: thread 1 calls on the pending token at address 0 with
the initialiser `reentrant 1 0`.  The outer call returns OK; the call made inside the initialiser
has returned 0 although the initialiser had not yet made its effect (`seenDone` is false), which
it made only afterwards (`initDone` is true at the end). -/
theorem inner_call_returns_before_completion :
    pthread_once 1 (some 0) (some (reentrant 1 0))
        { once := fun _ => false, g_lock := NXRMUTEX_INITIALIZER,
          user := { initDone := false, innerStatus := none, seenDone := none } }
      = .ret OK
        { once := setOnce (fun _ => false) 0, g_lock := NXRMUTEX_INITIALIZER,
          user := { initDone := true, innerStatus := some 0, seenDone := some false } } := by
  rfl

/-! ## C3: concurrent callers -/

theorem setPC_same (pc : Tid → PC) (t : Tid) (c : PC) : setPC pc t c t = c := by
  simp [setPC]

theorem setPC_other (pc : Tid → PC) (t u : Tid) (c : PC) (h : u ≠ t) :
    setPC pc t c u = pc u := by
  simp [setPC, h]

theorem run_append {σ : Type} (p : Nat) (f : Action σ) (as bs : List Tid) :
    ∀ s : Sys σ, run p f (as ++ bs) s = run p f bs (run p f as s) := by
  induction as with
  | nil =>
    intro s
    rfl
  | cons a as ih =>
    intro s
    simp only [List.cons_append, run]
    cases step p f a s with
    | none => exact ih s
    | some s1 => exact ih s1

/-- The initial system satisfies the invariant. -/
theorem onceInv_init (p n : Nat) (w : World Nat)
    (hfree : w.g_lock = NXRMUTEX_INITIALIZER) (hpend : w.once p = false) (hzero : w.user = 0) :
    OnceInv p (initSys n w) := by
  refine ⟨?_, ?_, ?_, ?_, ?_⟩
  · intro t _ hc
    simp [initSys, PC.critical] at hc
  · intro _
    exact hfree
  · intro t _
    exact Or.inr (Or.inl rfl)
  · intro _
    exact ⟨hzero, fun t _ => Or.inl rfl⟩
  · intro h
    simp [initSys, hpend] at h

/-- Two threads inside the critical section are the same thread. -/
theorem onceInv_unique (p : Nat) (s : Sys Nat) (h : OnceInv p s) (t u : Tid)
    (ht : t < s.threads) (hu : u < s.threads)
    (hct : (s.pc t).critical = true) (hcu : (s.pc u).critical = true) : u = t := by
  have h1 := h.1 t ht hct
  have h2 := h.1 u hu hcu
  rw [h1] at h2
  simp at h2
  exact h2.symm

theorem onceInv_step_lock (p : Nat) (t : Tid) (s s1 : Sys Nat) (h : OnceInv p s)
    (ht : t < s.threads) (hpc : s.pc t = .lock)
    (hs : step p incr t s = some s1) : OnceInv p s1 := by
  obtain ⟨hA, hB, hC, hD, hE⟩ := h
  simp only [step, ht, if_true, hpc] at hs
  cases hl : nxrmutex_lock t s.w.g_lock with
  | none =>
    rw [hl] at hs
    cases hs
  | some m =>
    rw [hl] at hs
    simp only [Option.some.injEq] at hs
    subst hs
    -- nobody is inside the critical section
    have hnone : ∀ u, u < s.threads → (s.pc u).critical = false := by
      intro u hu
      by_contra hcu
      simp only [Bool.not_eq_false] at hcu
      have hg := hA u hu hcu
      have hut : u ≠ t := by
        intro e
        subst e
        rw [hpc] at hcu
        simp [PC.critical] at hcu
      rw [hg] at hl
      simp [nxrmutex_lock, hut] at hl
    have hfree := hB hnone
    rw [hfree] at hl
    simp [nxrmutex_lock] at hl
    subst hl
    refine ⟨?_, ?_, ?_, ?_, ?_⟩
    · intro u hu hcu
      by_cases hut : u = t
      · subst hut
        rfl
      · simp only [setPC_other _ _ _ _ hut] at hcu
        rw [hnone u hu] at hcu
        cases hcu
    · intro hall
      have := hall t ht
      simp [setPC_same, PC.critical] at this
    · intro u hu
      by_cases hut : u = t
      · subst hut
        left
        simp [setPC_same, PC.critical]
      · simp only [setPC_other _ _ _ _ hut]
        exact hC u hu
    · intro hf
      obtain ⟨hz, hall⟩ := hD hf
      refine ⟨hz, ?_⟩
      intro u hu
      by_cases hut : u = t
      · subst hut
        right; left
        simp [setPC_same]
      · simp only [setPC_other _ _ _ _ hut]
        exact hall u hu
    · intro htrue
      obtain ⟨h1, h2, h3⟩ := hE htrue
      refine ⟨?_, ?_, ?_⟩
      · intro u hu
        by_cases hut : u = t
        · subst hut
          simp [setPC_same]
        · simp only [setPC_other _ _ _ _ hut]
          exact h1 u hu
      · rintro ⟨u, hu, hpu⟩
        by_cases hut : u = t
        · subst hut
          simp [setPC_same] at hpu
        · simp only [setPC_other _ _ _ _ hut] at hpu
          exact h2 ⟨u, hu, hpu⟩
      · intro hall
        apply h3
        intro u hu
        by_cases hut : u = t
        · subst hut
          rw [hpc]
          simp
        · have := hall u hu
          simp only [setPC_other _ _ _ _ hut] at this
          exact this

theorem onceInv_others (p : Nat) (s : Sys Nat) (h : OnceInv p s) (t : Tid)
    (ht : t < s.threads) (hct : (s.pc t).critical = true) :
    ∀ u, u < s.threads → u ≠ t → (s.pc u).critical = false := by
  intro u hu hut
  by_contra hcu
  simp only [Bool.not_eq_false] at hcu
  exact hut (onceInv_unique p s h t u ht hu hct hcu)

theorem onceInv_step_test (p : Nat) (t : Tid) (s s1 : Sys Nat) (h : OnceInv p s)
    (ht : t < s.threads) (hpc : s.pc t = .test)
    (hs : step p incr t s = some s1) : OnceInv p s1 := by
  obtain ⟨hA, hB, hC, hD, hE⟩ := h
  have hct : (s.pc t).critical = true := by rw [hpc]; rfl
  simp only [step, ht, if_true, hpc] at hs
  cases hflag : s.w.once p with
  | false =>
    simp only [hflag, if_true, Option.some.injEq] at hs
    subst hs
    refine ⟨?_, ?_, ?_, ?_, ?_⟩
    · intro u hu hcu
      by_cases hut : u = t
      · subst hut
        exact hA u ht hct
      · simp only [setPC_other _ _ _ _ hut] at hcu
        exact hA u hu hcu
    · intro hall
      have := hall t ht
      simp [setPC_same, PC.critical] at this
    · intro u hu
      by_cases hut : u = t
      · subst hut
        left
        simp [setPC_same, PC.critical]
      · simp only [setPC_other _ _ _ _ hut]
        exact hC u hu
    · intro hf
      obtain ⟨hz, hall⟩ := hD hf
      refine ⟨hz, ?_⟩
      intro u hu
      by_cases hut : u = t
      · subst hut
        right; right
        simp [setPC_same]
      · simp only [setPC_other _ _ _ _ hut]
        exact hall u hu
    · intro htrue
      simp only [hflag] at htrue
      cases htrue
  | true =>
    simp only [hflag, Bool.true_eq_false, if_false, Option.some.injEq] at hs
    subst hs
    obtain ⟨h1, h2, h3⟩ := hE hflag
    refine ⟨?_, ?_, ?_, ?_, ?_⟩
    · intro u hu hcu
      by_cases hut : u = t
      · subst hut
        exact hA u ht hct
      · simp only [setPC_other _ _ _ _ hut] at hcu
        exact hA u hu hcu
    · intro hall
      have := hall t ht
      simp [setPC_same, PC.critical] at this
    · intro u hu
      by_cases hut : u = t
      · subst hut
        left
        simp [setPC_same, PC.critical]
      · simp only [setPC_other _ _ _ _ hut]
        exact hC u hu
    · intro hf
      simp only [hflag] at hf
      cases hf
    · intro _
      refine ⟨?_, ?_, ?_⟩
      · intro u hu
        by_cases hut : u = t
        · subst hut
          simp [setPC_same]
        · simp only [setPC_other _ _ _ _ hut]
          exact h1 u hu
      · rintro ⟨u, hu, hpu⟩
        by_cases hut : u = t
        · subst hut
          simp [setPC_same] at hpu
        · simp only [setPC_other _ _ _ _ hut] at hpu
          exact h2 ⟨u, hu, hpu⟩
      · intro hall
        apply h3
        intro u hu
        by_cases hut : u = t
        · subst hut
          rw [hpc]
          simp
        · have := hall u hu
          simp only [setPC_other _ _ _ _ hut] at this
          exact this

theorem onceInv_step_mark (p : Nat) (t : Tid) (s s1 : Sys Nat) (h : OnceInv p s)
    (ht : t < s.threads) (hpc : s.pc t = .mark)
    (hs : step p incr t s = some s1) : OnceInv p s1 := by
  have hct : (s.pc t).critical = true := by rw [hpc]; rfl
  have hoth := onceInv_others p s h t ht hct
  obtain ⟨hA, hB, hC, hD, hE⟩ := h
  simp only [step, ht, if_true, hpc, Option.some.injEq] at hs
  subst hs
  have hflag : s.w.once p = false := by
    cases hf : s.w.once p with
    | false => rfl
    | true => exact absurd hpc ((hE hf).1 t ht)
  obtain ⟨hz, hall⟩ := hD hflag
  refine ⟨?_, ?_, ?_, ?_, ?_⟩
  · intro u hu hcu
    by_cases hut : u = t
    · subst hut
      exact hA u ht hct
    · simp only [setPC_other _ _ _ _ hut] at hcu
      exact hA u hu hcu
  · intro hall1
    have := hall1 t ht
    simp [setPC_same, PC.critical] at this
  · intro u hu
    by_cases hut : u = t
    · subst hut
      left
      simp [setPC_same, PC.critical]
    · simp only [setPC_other _ _ _ _ hut]
      exact hC u hu
  · intro hf
    simp [setOnce] at hf
  · intro _
    refine ⟨?_, ?_, ?_⟩
    · intro u hu
      by_cases hut : u = t
      · subst hut
        simp [setPC_same]
      · simp only [setPC_other _ _ _ _ hut]
        intro hm
        have := hoth u hu hut
        rw [hm] at this
        simp [PC.critical] at this
    · intro _
      exact hz
    · intro hall1
      have := hall1 t ht
      simp [setPC_same] at this

theorem onceInv_step_init (p : Nat) (t : Tid) (s s1 : Sys Nat) (h : OnceInv p s)
    (ht : t < s.threads) (hpc : s.pc t = .init)
    (hs : step p incr t s = some s1) : OnceInv p s1 := by
  have hct : (s.pc t).critical = true := by rw [hpc]; rfl
  have hoth := onceInv_others p s h t ht hct
  obtain ⟨hA, hB, hC, hD, hE⟩ := h
  simp only [step, ht, if_true, hpc, incr, Option.some.injEq] at hs
  subst hs
  have hflag : s.w.once p = true := by
    cases hf : s.w.once p with
    | true => rfl
    | false =>
      have := (hD hf).2 t ht
      rw [hpc] at this
      simp at this
  obtain ⟨h1, h2, h3⟩ := hE hflag
  have hz : s.w.user = 0 := h2 ⟨t, ht, hpc⟩
  refine ⟨?_, ?_, ?_, ?_, ?_⟩
  · intro u hu hcu
    by_cases hut : u = t
    · subst hut
      exact hA u ht hct
    · simp only [setPC_other _ _ _ _ hut] at hcu
      exact hA u hu hcu
  · intro hall1
    have := hall1 t ht
    simp [setPC_same, PC.critical] at this
  · intro u hu
    by_cases hut : u = t
    · subst hut
      left
      simp [setPC_same, PC.critical]
    · simp only [setPC_other _ _ _ _ hut]
      exact hC u hu
  · intro hf
    simp only [hflag] at hf
    cases hf
  · intro _
    refine ⟨?_, ?_, ?_⟩
    · intro u hu
      by_cases hut : u = t
      · subst hut
        simp [setPC_same]
      · simp only [setPC_other _ _ _ _ hut]
        exact h1 u hu
    · rintro ⟨u, hu, hpu⟩
      by_cases hut : u = t
      · subst hut
        simp [setPC_same] at hpu
      · simp only [setPC_other _ _ _ _ hut] at hpu
        have := hoth u hu hut
        rw [hpu] at this
        simp [PC.critical] at this
    · intro _
      simp [hz]

theorem onceInv_step_unlock (p : Nat) (t : Tid) (s s1 : Sys Nat) (h : OnceInv p s)
    (ht : t < s.threads) (hpc : s.pc t = .unlockFirst ∨ s.pc t = .unlockLater)
    (hs : step p incr t s = some s1) : OnceInv p s1 := by
  have hct : (s.pc t).critical = true := by
    rcases hpc with e | e <;> rw [e] <;> rfl
  have hoth := onceInv_others p s h t ht hct
  obtain ⟨hA, hB, hC, hD, hE⟩ := h
  have hg := hA t ht hct
  have hs1 : s1 = { s with pc := setPC s.pc t (.returned OK),
                           w := { s.w with g_lock := ⟨none, 0⟩ } } := by
    rcases hpc with e | e <;>
      · simp only [step, ht, if_true, e, Option.some.injEq] at hs
        rw [← hs, hg]
        simp [nxrmutex_unlock]
  subst hs1
  have hflag : s.w.once p = true := by
    cases hf : s.w.once p with
    | true => rfl
    | false =>
      have := (hD hf).2 t ht
      rcases hpc with e | e <;> rw [e] at this <;> simp at this
  obtain ⟨h1, h2, h3⟩ := hE hflag
  refine ⟨?_, ?_, ?_, ?_, ?_⟩
  · intro u hu hcu
    by_cases hut : u = t
    · subst hut
      simp [setPC_same, PC.critical] at hcu
    · simp only [setPC_other _ _ _ _ hut] at hcu
      rw [hoth u hu hut] at hcu
      cases hcu
  · intro _
    rfl
  · intro u hu
    by_cases hut : u = t
    · subst hut
      right; right
      simp [setPC_same]
    · simp only [setPC_other _ _ _ _ hut]
      exact hC u hu
  · intro hf
    simp only [hflag] at hf
    cases hf
  · intro _
    refine ⟨?_, ?_, ?_⟩
    · intro u hu
      by_cases hut : u = t
      · subst hut
        simp [setPC_same]
      · simp only [setPC_other _ _ _ _ hut]
        exact h1 u hu
    · rintro ⟨u, hu, hpu⟩
      by_cases hut : u = t
      · subst hut
        simp [setPC_same] at hpu
      · simp only [setPC_other _ _ _ _ hut] at hpu
        exact h2 ⟨u, hu, hpu⟩
    · intro hall
      apply h3
      intro u hu
      by_cases hut : u = t
      · subst hut
        rcases hpc with e | e <;> rw [e] <;> simp
      · have := hall u hu
        simp only [setPC_other _ _ _ _ hut] at this
        exact this

/-- Every step keeps the invariant. -/
theorem onceInv_step (p : Nat) (t : Tid) (s s1 : Sys Nat) (h : OnceInv p s)
    (hs : step p incr t s = some s1) : OnceInv p s1 := by
  by_cases ht : t < s.threads
  · cases hpc : s.pc t with
    | lock => exact onceInv_step_lock p t s s1 h ht hpc hs
    | test => exact onceInv_step_test p t s s1 h ht hpc hs
    | mark => exact onceInv_step_mark p t s s1 h ht hpc hs
    | init => exact onceInv_step_init p t s s1 h ht hpc hs
    | unlockFirst => exact onceInv_step_unlock p t s s1 h ht (Or.inl hpc) hs
    | unlockLater => exact onceInv_step_unlock p t s s1 h ht (Or.inr hpc) hs
    | returned r =>
      simp [step, ht, hpc] at hs
    | exited =>
      simp [step, ht, hpc] at hs
  · simp [step, ht] at hs

/-- Every execution from a state with the invariant ends in a state with the invariant. -/
theorem onceInv_run (p : Nat) (sched : List Tid) :
    ∀ s : Sys Nat, OnceInv p s → OnceInv p (run p incr sched s) := by
  induction sched with
  | nil =>
    intro s h
    exact h
  | cons t ts ih =>
    intro s h
    simp only [run]
    cases hs : step p incr t s with
    | none => exact ih s h
    | some s1 => exact ih s1 (onceInv_step p t s s1 h hs)

/-- When all calls have returned in a state with the invariant, the counter is 1, the token is
set and every status is OK. -/
theorem onceInv_final (p : Nat) (s : Sys Nat) (h : OnceInv p s) (hn : 0 < s.threads)
    (hall : allReturned s) :
    s.w.user = 1 ∧ s.w.once p = true ∧ allReturnedOK s := by
  obtain ⟨hA, hB, hC, hD, hE⟩ := h
  have hret : ∀ t, t < s.threads → s.pc t = .returned OK := by
    intro t ht
    have hst := hall t ht
    rcases hC t ht with hc | hc | hc
    · cases hpc : s.pc t <;> rw [hpc] at hc hst <;> simp [PC.critical, PC.status] at hc hst
    · rw [hc] at hst
      simp [PC.status] at hst
    · exact hc
  have hflag : s.w.once p = true := by
    cases hf : s.w.once p with
    | true => rfl
    | false =>
      have := (hD hf).2 0 hn
      rw [hret 0 hn] at this
      simp at this
  refine ⟨(hE hflag).2.2 ?_, hflag, hret⟩
  intro t ht
  rw [hret t ht]
  simp

/-- A step moves one thread to a program point with fewer remaining steps. -/
theorem step_shape {σ : Type} (p : Nat) (f : Action σ) (t : Tid) (s s1 : Sys σ)
    (hs : step p f t s = some s1) :
    t < s.threads ∧ s1.threads = s.threads
      ∧ ∃ c, s1.pc = setPC s.pc t c ∧ c.remaining < (s.pc t).remaining := by
  by_cases ht : t < s.threads
  swap
  · simp [step, ht] at hs
  refine ⟨ht, ?_⟩
  simp only [step, ht, if_true] at hs
  cases hpc : s.pc t with
  | lock =>
    rw [hpc] at hs
    cases hl : nxrmutex_lock t s.w.g_lock with
    | none =>
      rw [hl] at hs
      cases hs
    | some m =>
      rw [hl] at hs
      simp only [Option.some.injEq] at hs
      subst hs
      exact ⟨rfl, .test, rfl, by decide⟩
  | test =>
    rw [hpc] at hs
    cases hflag : s.w.once p with
    | false =>
      simp only [hflag, if_true, Option.some.injEq] at hs
      subst hs
      exact ⟨rfl, .mark, rfl, by decide⟩
    | true =>
      simp only [hflag, Bool.true_eq_false, if_false, Option.some.injEq] at hs
      subst hs
      exact ⟨rfl, .unlockLater, rfl, by decide⟩
  | mark =>
    rw [hpc] at hs
    simp only [Option.some.injEq] at hs
    subst hs
    exact ⟨rfl, .init, rfl, by decide⟩
  | init =>
    rw [hpc] at hs
    cases hf : f s.w with
    | ret u w3 =>
      rw [hf] at hs
      simp only [Option.some.injEq] at hs
      subst hs
      exact ⟨rfl, .unlockFirst, rfl, by decide⟩
    | abort w3 =>
      rw [hf] at hs
      simp only [Option.some.injEq] at hs
      subst hs
      exact ⟨rfl, .exited, rfl, by decide⟩
    | blocked w3 =>
      rw [hf] at hs
      cases hs
  | unlockFirst =>
    rw [hpc] at hs
    simp only [Option.some.injEq] at hs
    subst hs
    exact ⟨rfl, .returned OK, rfl, by decide⟩
  | unlockLater =>
    rw [hpc] at hs
    simp only [Option.some.injEq] at hs
    subst hs
    exact ⟨rfl, .returned OK, rfl, by decide⟩
  | returned r =>
    rw [hpc] at hs
    cases hs
  | exited =>
    rw [hpc] at hs
    cases hs

/-- A step lowers the bound on the remaining steps. -/
theorem step_remaining {σ : Type} (p : Nat) (f : Action σ) (t : Tid) (s s1 : Sys σ)
    (hs : step p f t s = some s1) : remainingSteps s1 < remainingSteps s := by
  obtain ⟨ht, hn, c, hpc, hlt⟩ := step_shape p f t s s1 hs
  unfold remainingSteps
  rw [hn, hpc]
  apply Finset.sum_lt_sum
  · intro u _
    by_cases hut : u = t
    · subst hut
      rw [setPC_same]
      exact Nat.le_of_lt hlt
    · rw [setPC_other _ _ _ _ hut]
  · exact ⟨t, Finset.mem_range.mpr ht, by rw [setPC_same]; exact hlt⟩

/-- In a state with the invariant in which some call has not returned, some thread can move. -/
theorem onceInv_enabled (p : Nat) (s : Sys Nat) (h : OnceInv p s) (hnot : ¬ allReturned s) :
    ∃ t s1, step p incr t s = some s1 := by
  obtain ⟨hA, hB, hC, hD, hE⟩ := h
  by_cases hcrit : ∃ u, u < s.threads ∧ (s.pc u).critical = true
  · obtain ⟨u, hu, hcu⟩ := hcrit
    refine ⟨u, ?_⟩
    cases hpc : s.pc u with
    | lock => rw [hpc] at hcu; simp [PC.critical] at hcu
    | test =>
      cases hflag : s.w.once p with
      | false => exact ⟨_, by simp only [step, hu, if_true, hpc, hflag]; rfl⟩
      | true =>
        exact ⟨_, by simp only [step, hu, if_true, hpc, hflag, Bool.true_eq_false, if_false]; rfl⟩
    | mark => exact ⟨_, by simp only [step, hu, if_true, hpc]; rfl⟩
    | init => exact ⟨_, by simp only [step, hu, if_true, hpc, incr]; rfl⟩
    | unlockFirst => exact ⟨_, by simp only [step, hu, if_true, hpc]; rfl⟩
    | unlockLater => exact ⟨_, by simp only [step, hu, if_true, hpc]; rfl⟩
    | returned r => rw [hpc] at hcu; simp [PC.critical] at hcu
    | exited => rw [hpc] at hcu; simp [PC.critical] at hcu
  · have hnone : ∀ u, u < s.threads → (s.pc u).critical = false := by
      intro u hu
      by_contra hcu
      simp only [Bool.not_eq_false] at hcu
      exact hcrit ⟨u, hu, hcu⟩
    have hfree := hB hnone
    unfold allReturned at hnot
    push_neg at hnot
    obtain ⟨t, ht, hst⟩ := hnot
    have hpc : s.pc t = .lock := by
      rcases hC t ht with hc | hc | hc
      · rw [hnone t ht] at hc
        cases hc
      · exact hc
      · rw [hc] at hst
        simp [PC.status] at hst
    exact ⟨t, _, by simp only [step, ht, if_true, hpc, hfree, nxrmutex_lock]; rfl⟩

/-- From every state with the invariant some schedule lets all calls return. -/
theorem onceInv_completes (p : Nat) (k : Nat) :
    ∀ s : Sys Nat, OnceInv p s → remainingSteps s ≤ k →
      ∃ sched, allReturned (run p incr sched s) := by
  induction k with
  | zero =>
    intro s h hk
    by_cases hall : allReturned s
    · exact ⟨[], hall⟩
    · obtain ⟨t, s1, hs⟩ := onceInv_enabled p s h hall
      have := step_remaining p incr t s s1 hs
      omega
  | succ k ih =>
    intro s h hk
    by_cases hall : allReturned s
    · exact ⟨[], hall⟩
    · obtain ⟨t, s1, hs⟩ := onceInv_enabled p s h hall
      have hlt := step_remaining p incr t s s1 hs
      obtain ⟨sched, hsched⟩ := ih s1 (onceInv_step p t s s1 h hs) (by omega)
      refine ⟨t :: sched, ?_⟩
      simp only [run, hs]
      exact hsched

theorem run_threads {σ : Type} (p : Nat) (f : Action σ) (sched : List Tid) :
    ∀ s : Sys σ, (run p f sched s).threads = s.threads := by
  induction sched with
  | nil =>
    intro s
    rfl
  | cons t ts ih =>
    intro s
    simp only [run]
    cases hs : step p f t s with
    | none => exact ih s
    | some s1 =>
      simp only []
      rw [ih s1]
      exact (step_shape p f t s s1 hs).2.1

/-- C3: `n ≥ 2` threads call `pthread_once(p, incr)` concurrently, starting with the token at
`p` pending, the counter 0 and the lock free.  Under every schedule of their lock, test, mark,
init and unlock steps: if all calls have returned, then the counter is exactly 1, the token is
set and every call has returned OK; and whatever has been executed so far, the schedule can be
continued so that all calls return. -/
theorem single_execution (n p : Nat) (w : World Nat) (sched : List Tid)
    (hn : 2 ≤ n)
    (hfree : w.g_lock = NXRMUTEX_INITIALIZER)
    (hpend : w.once p = false)
    (hzero : w.user = 0) :
    (allReturned (run p incr sched (initSys n w)) →
        (run p incr sched (initSys n w)).w.user = 1
        ∧ (run p incr sched (initSys n w)).w.once p = true
        ∧ allReturnedOK (run p incr sched (initSys n w)))
    ∧ ∃ more, allReturned (run p incr (sched ++ more) (initSys n w)) := by
  have hinv := onceInv_run p sched (initSys n w) (onceInv_init p n w hfree hpend hzero)
  have hthreads : 0 < (run p incr sched (initSys n w)).threads := by
    rw [run_threads]
    simp only [initSys]
    omega
  refine ⟨fun hall => onceInv_final p _ hinv hthreads hall, ?_⟩
  obtain ⟨more, hmore⟩ := onceInv_completes p _ _ hinv (Nat.le_refl _)
  exact ⟨more, by rw [run_append]; exact hmore⟩

/-- Witness of C3: two threads on the token at address 0; thread 1 asks for the lock twice
while thread 0 holds it, and gets it after thread 0 has returned. -/
theorem single_execution_witness :
    (run 0 incr [0, 1, 0, 1, 0, 0, 0, 1, 1, 1]
        (initSys 2 { once := fun _ => false, g_lock := NXRMUTEX_INITIALIZER, user := 0 })).w.user
      = 1
    ∧ (run 0 incr [0, 1, 0, 1, 0, 0, 0, 1, 1, 1]
        (initSys 2 { once := fun _ => false, g_lock := NXRMUTEX_INITIALIZER, user := 0 })).w.once 0
      = true
    ∧ allReturnedOK (run 0 incr [0, 1, 0, 1, 0, 0, 0, 1, 1, 1]
        (initSys 2 { once := fun _ => false, g_lock := NXRMUTEX_INITIALIZER, user := 0 })) :=
  (single_execution 2 0 { once := fun _ => false, g_lock := NXRMUTEX_INITIALIZER, user := 0 }
    [0, 1, 0, 1, 0, 0, 0, 1, 1, 1] (by decide) rfl rfl rfl).1
    (fun t ht => by
      have ht2 : t < 2 := ht
      have : t = 0 ∨ t = 1 := by omega
      rcases this with e | e <;> subst e <;> rfl)

/-! ## C11: an initialiser that leaves by a non-local exit -/

/-- A lock that thread `self` holds is not available to any other thread. -/
theorem lock_of_other (self t : Tid) (m : RMutex) (ht : t ≠ self)
    (h : 0 < holdCount self m) : nxrmutex_lock t m = none := by
  have hh : m.holder = some self := by
    by_contra hne
    simp [holdCount, hne] at h
  have hne : ¬ self = t := fun e => ht e.symm
  simp [nxrmutex_lock, hh, hne]

/-- A system in which one thread has left by a non-local exit while holding the lock, and all
other threads are at the entry of the function, does not move under any schedule. -/
theorem run_stuck {σ : Type} (q : Nat) (g : Action σ) (self : Tid) (s : Sys σ)
    (hheld : 0 < holdCount self s.w.g_lock)
    (hself : s.pc self = .exited)
    (hothers : ∀ t, t < s.threads → t ≠ self → s.pc t = .lock)
    (sched : List Tid) : run q g sched s = s := by
  have hstep : ∀ t, step q g t s = none := by
    intro t
    by_cases ht : t < s.threads
    · by_cases hts : t = self
      · subst hts
        simp [step, ht, hself]
      · simp [step, ht, hothers t ht hts, lock_of_other self t s.w.g_lock hts hheld]
    · simp [step, ht]
  induction sched with
  | nil => rfl
  | cons t ts ih =>
    simp only [run, hstep t]
    exact ih

/-- C11, the claim fails: thread 1 calls on the pending token at address 0, the lock being
free, with an initialiser that leaves by a non-local exit.  The call ends by that exit with
thread 1 still holding the lock once, so its hold count is not restored, and a later call by
thread 2 on the token at address 5 waits for the lock. -/
theorem exit_leaves_lock_held_counterexample :
    pthread_once 1 (some 0) (some exitNow)
        { once := fun _ => false, g_lock := NXRMUTEX_INITIALIZER, user := (0 : Nat) }
      = .abort { once := setOnce (fun _ => false) 0, g_lock := ⟨some 1, 1⟩, user := 0 }
    ∧ holdCount 1 (pthread_once 1 (some 0) (some exitNow)
        { once := fun _ => false, g_lock := NXRMUTEX_INITIALIZER, user := (0 : Nat) }).world.g_lock
      ≠ holdCount 1 NXRMUTEX_INITIALIZER
    ∧ pthread_once 2 (some 5) (some incr)
        { once := setOnce (fun _ => false) 0, g_lock := ⟨some 1, 1⟩, user := 0 }
      = .blocked { once := setOnce (fun _ => false) 0, g_lock := ⟨some 1, 1⟩, user := 0 } :=
  ⟨rfl, by decide, rfl⟩

/-- C11 as amended: when the action of a call by thread `self` on a pending token leaves by a
non-local exit, having left the lock alone, the call ends by that exit without unlocking: thread
`self` holds the lock once more than before the call.  The same thread can still take the lock,
but a later call by any other thread, on any token and with any action, waits; and a system in
which the other threads are at the entry of `pthread_once` never moves again. -/
theorem abort_keeps_lock {σ : Type} (self : Tid) (p : Nat) (f : Action σ) (w w3 : World σ)
    (m : RMutex)
    (hlock : nxrmutex_lock self w.g_lock = some m)
    (hpend : w.once p = false)
    (habort : f (atInit p m w) = .abort w3)
    (halone : w3.g_lock = m) :
    pthread_once self (some p) (some f) w = .abort w3
    ∧ holdCount self w3.g_lock = holdCount self w.g_lock + 1
    ∧ (∃ m1, nxrmutex_lock self w3.g_lock = some m1)
    ∧ (∀ (t : Tid) (q : Nat) (g : Action σ), t ≠ self →
        pthread_once t (some q) (some g) w3 = .blocked w3)
    ∧ (∀ (s : Sys σ) (q : Nat) (g : Action σ) (sched : List Tid),
        s.w = w3 → s.pc self = .exited →
        (∀ t, t < s.threads → t ≠ self → s.pc t = .lock) →
        run q g sched s = s) := by
  have hm := holdCount_lock self w.g_lock m hlock
  have hcount : holdCount self w3.g_lock = holdCount self w.g_lock + 1 := by
    rw [halone]
    simp [holdCount, hm.1, hm.2]
  have hheld : 0 < holdCount self w3.g_lock := by omega
  refine ⟨?_, hcount, ?_, ?_, ?_⟩
  · rw [pthread_once_pending self p f w m hlock hpend, habort]
  · rw [lock_some_iff, halone]
    exact Or.inr hm.1
  · intro t q g ht
    exact pthread_once_waits t q g w3 (lock_of_other self t w3.g_lock ht hheld)
  · intro s q g sched hw hself hothers
    exact run_stuck q g self s (by rw [hw]; exact hheld) hself hothers sched

/-- Witness of C11 as amended: thread 1 calls on the pending token at address 0 with the
initialiser that leaves at once, the lock being free and the counter 0. -/
theorem abort_keeps_lock_witness :
    pthread_once 1 (some 0) (some exitNow)
        { once := fun _ => false, g_lock := NXRMUTEX_INITIALIZER, user := (0 : Nat) }
      = .abort { once := setOnce (fun _ => false) 0, g_lock := ⟨some 1, 1⟩, user := 0 }
    ∧ holdCount 1 (⟨some 1, 1⟩ : RMutex) = holdCount 1 NXRMUTEX_INITIALIZER + 1 :=
  have h := abort_keeps_lock 1 0 exitNow
    { once := fun _ => false, g_lock := NXRMUTEX_INITIALIZER, user := (0 : Nat) }
    { once := setOnce (fun _ => false) 0, g_lock := ⟨some 1, 1⟩, user := 0 }
    ⟨some 1, 1⟩ rfl rfl rfl rfl
  ⟨h.1, h.2.1⟩

/-! ## C12: the lock is held while the action runs -/

/-- C12: in a call by thread `self` on a pending token, the lock being available, the action
is entered with thread `self` holding the lock once more than before the call, which an action
that only observes the hold count sees; and the call ends as the action ends: when the action
returns, the one unlock is applied to the world the action returned in, and when the action does
not return there is no unlock. -/
theorem lock_held_across_action {σ : Type} (self : Tid) (p : Nat) (f : Action σ) (w : World σ)
    (m : RMutex)
    (hlock : nxrmutex_lock self w.g_lock = some m)
    (hpend : w.once p = false) :
    holdCount self (atInit p m w).g_lock = holdCount self w.g_lock + 1
    ∧ (∀ k : Nat → σ → σ,
        (pthread_once self (some p) (some (observeHold self k)) w).world.user
          = k (holdCount self w.g_lock + 1) w.user)
    ∧ pthread_once self (some p) (some f) w
        = (match f (atInit p m w) with
          | .ret () w3 => .ret OK (afterUnlock self w3)
          | .abort w3 => .abort w3
          | .blocked w3 => .blocked w3)
    ∧ (∀ w3, f (atInit p m w) = .ret () w3 →
        holdCount self w3.g_lock = holdCount self (atInit p m w).g_lock →
        0 < holdCount self w3.g_lock
        ∧ (pthread_once self (some p) (some f) w).world.g_lock
            = nxrmutex_unlock self w3.g_lock) := by
  have hm := holdCount_lock self w.g_lock m hlock
  have hcount : holdCount self (atInit p m w).g_lock = holdCount self w.g_lock + 1 := by
    simp [atInit, holdCount, hm.1, hm.2]
  have hp := pthread_once_pending self p f w m hlock hpend
  refine ⟨hcount, ?_, hp, ?_⟩
  · intro k
    rw [pthread_once_pending self p (observeHold self k) w m hlock hpend]
    simp only [observeHold, hcount]
    rfl
  · intro w3 hret hkeep
    refine ⟨by omega, ?_⟩
    rw [hp, hret]
    rfl

/-- Witness of C12: thread 1, holding the lock twice, calls on the pending token at address 0
with an action that stores the hold count it observes; it observes 3. -/
theorem lock_held_across_action_witness :
    (pthread_once 1 (some 0) (some (observeHold 1 (fun c _ => c)))
        { once := fun _ => false, g_lock := ⟨some 1, 2⟩, user := (0 : Nat) }).world.user
      = holdCount 1 (⟨some 1, 2⟩ : RMutex) + 1 :=
  (lock_held_across_action 1 0 incr
    { once := fun _ => false, g_lock := ⟨some 1, 2⟩, user := (0 : Nat) }
    ⟨some 1, 3⟩ rfl rfl).2.1 (fun c _ => c)

/-! ## C13: an initialiser that initialises another token -/

/-- A call on a pending token by a thread that already holds the lock: the lock is taken once
more, the action runs, and the lock is released once. -/
theorem pthread_once_pending_held {σ : Type} (self : Tid) (q : Nat) (g : Action σ)
    (v v2 : World σ)
    (hheld : 0 < holdCount self v.g_lock) (hpend : v.once q = false)
    (hret : g (atInit q ⟨some self, v.g_lock.count + 1⟩ v) = .ret () v2) :
    nxrmutex_lock self v.g_lock = some ⟨some self, v.g_lock.count + 1⟩
    ∧ pthread_once self (some q) (some g) v = .ret OK (afterUnlock self v2) := by
  have hh : v.g_lock.holder = some self := by
    by_contra hne
    simp [holdCount, hne] at hheld
  have hl := lock_of_held self v.g_lock hh
  refine ⟨hl, ?_⟩
  rw [pthread_once_pending self q g v _ hl hpend, hret]

/-- C13: thread `self` calls on the pending token `a`, the lock being available, with an action
made of a part `before`, then the statement `pthread_once(b, g)` for another pending token `b`,
then a part `after`; the three parts `before`, `g` and `after` return, leave the two tokens
alone and keep the hold count.  Then the inner call finds the lock held by its own thread and
takes it again instead of waiting; it returns OK in the world that one run of `g` produced,
unlocked once; the outer call returns OK in the world that `after` produced, unlocked once; both
tokens are set there and thread `self` holds the lock as often as before the outer call. -/
theorem nested_other_token {σ : Type} (self : Tid) (a b : Nat) (before g after : Action σ)
    (w v v2 w3 : World σ) (m : RMutex)
    (hab : a ≠ b)
    (hlock : nxrmutex_lock self w.g_lock = some m)
    (ha : w.once a = false)
    (hb : w.once b = false)
    (hbefore : before (atInit a m w) = .ret () v)
    (hg : g (atInit b ⟨some self, v.g_lock.count + 1⟩ v) = .ret () v2)
    (hafter : after (afterUnlock self v2) = .ret () w3)
    (htok : ∀ h, h = before ∨ h = g ∨ h = after → LeavesToken a h ∧ LeavesToken b h)
    (hhold : ∀ h, h = before ∨ h = g ∨ h = after → KeepsHold self h) :
    nxrmutex_lock self v.g_lock = some ⟨some self, v.g_lock.count + 1⟩
    ∧ pthread_once self (some b) (some g) v = .ret OK (afterUnlock self v2)
    ∧ pthread_once self (some a)
        (some (seqAction before (seqAction (callOnce self (some b) (some g)) after))) w
        = .ret OK (afterUnlock self w3)
    ∧ (afterUnlock self w3).once a = true
    ∧ (afterUnlock self w3).once b = true
    ∧ holdCount self (afterUnlock self w3).g_lock = holdCount self w.g_lock := by
  have hm := holdCount_lock self w.g_lock m hlock
  have hinit : holdCount self (atInit a m w).g_lock = holdCount self w.g_lock + 1 := by
    simp [atInit, holdCount, hm.1, hm.2]
  -- the world in which the inner call is made
  have hvhold : holdCount self v.g_lock = holdCount self w.g_lock + 1 := by
    rw [hhold before (Or.inl rfl) _ v hbefore, hinit]
  have hva : v.once a = true := by
    have := (htok before (Or.inl rfl)).1 (atInit a m w)
    rw [hbefore] at this
    simp only [Outcome.world] at this
    rw [this]
    exact atInit_once a m w
  have hvb : v.once b = false := by
    have := (htok before (Or.inl rfl)).2 (atInit a m w)
    rw [hbefore] at this
    simp only [Outcome.world] at this
    rw [this]
    have hne : ¬ b = a := fun e => hab e.symm
    simp [atInit, setOnce, hne, hb]
  have hinner := pthread_once_pending_held self b g v v2 (by omega) hvb hg
  -- the world in which the inner call returns
  have hvh : v.g_lock.holder = some self := by
    by_contra hne
    have : holdCount self v.g_lock = 0 := by simp [holdCount, hne]
    omega
  have hv2hold : holdCount self v2.g_lock = holdCount self v.g_lock + 1 := by
    rw [hhold g (Or.inr (Or.inl rfl)) _ v2 hg]
    simp [atInit, holdCount, hvh]
  have hv2a : v2.once a = true := by
    have := (htok g (Or.inr (Or.inl rfl))).1 (atInit b ⟨some self, v.g_lock.count + 1⟩ v)
    rw [hg] at this
    simp only [Outcome.world] at this
    rw [this]
    simp [atInit, setOnce, hab, hva]
  have hv2b : v2.once b = true := by
    have := (htok g (Or.inr (Or.inl rfl))).2 (atInit b ⟨some self, v.g_lock.count + 1⟩ v)
    rw [hg] at this
    simp only [Outcome.world] at this
    rw [this]
    exact atInit_once b _ v
  -- the world in which the action of the outer call returns
  have hw3hold : holdCount self w3.g_lock = holdCount self w.g_lock + 1 := by
    rw [hhold after (Or.inr (Or.inr rfl)) _ w3 hafter]
    simp only [afterUnlock]
    rw [holdCount_unlock, hv2hold, hvhold]
    rfl
  have hw3a : w3.once a = true := by
    have := (htok after (Or.inr (Or.inr rfl))).1 (afterUnlock self v2)
    rw [hafter] at this
    simp only [Outcome.world] at this
    rw [this]
    exact hv2a
  have hw3b : w3.once b = true := by
    have := (htok after (Or.inr (Or.inr rfl))).2 (afterUnlock self v2)
    rw [hafter] at this
    simp only [Outcome.world] at this
    rw [this]
    exact hv2b
  refine ⟨hinner.1, hinner.2, ?_, hw3a, hw3b, ?_⟩
  · rw [pthread_once_pending self a _ w m hlock ha]
    simp only [seqAction, callOnce, hbefore, hinner.2, hafter]
  · simp only [afterUnlock]
    rw [holdCount_unlock, hw3hold]
    rfl

/-- Witness of C13: thread 1 calls on the pending token at address 0, the lock being free, with
an action that increments the counter and then calls `pthread_once` on the pending token at
address 1 with the counter increment; the counter ends at 2 and the lock is free again. -/
theorem nested_other_token_witness :
    pthread_once 1 (some 0)
        (some (seqAction incr (seqAction (callOnce 1 (some 1) (some incr))
          (fun v => Outcome.ret () v))))
        { once := fun _ => false, g_lock := NXRMUTEX_INITIALIZER, user := 0 }
      = .ret OK (afterUnlock 1
          { once := setOnce (setOnce (fun _ => false) 0) 1, g_lock := ⟨some 1, 1⟩, user := 2 })
    ∧ holdCount 1 (afterUnlock 1
          { once := setOnce (setOnce (fun _ => false) 0) 1, g_lock := ⟨some 1, 1⟩,
            user := (2 : Nat) }).g_lock
      = holdCount 1 NXRMUTEX_INITIALIZER :=
  have h := nested_other_token 1 0 1 incr incr (fun v => Outcome.ret () v)
    { once := fun _ => false, g_lock := NXRMUTEX_INITIALIZER, user := 0 }
    { once := setOnce (fun _ => false) 0, g_lock := ⟨some 1, 1⟩, user := 1 }
    { once := setOnce (setOnce (fun _ => false) 0) 1, g_lock := ⟨some 1, 2⟩, user := 2 }
    { once := setOnce (setOnce (fun _ => false) 0) 1, g_lock := ⟨some 1, 1⟩, user := 2 }
    ⟨some 1, 1⟩ (by decide) rfl rfl rfl rfl rfl rfl
    (fun h hh => by
      rcases hh with e | e | e <;> subst e <;> exact ⟨fun _ => rfl, fun _ => rfl⟩)
    (fun h hh => by
      rcases hh with e | e | e <;> subst e <;> intro x y hxy <;> cases hxy <;> rfl)
  ⟨h.2.2.1, h.2.2.2.2.2⟩

/-! ## C14: no second attempt after an initialiser that did not finish -/

/-- A call on a set token, by any thread and with any action, either waits in the world it was
made in or returns OK in that world with only the lock touched. -/
theorem pthread_once_marked_cases {σ : Type} (t : Tid) (p : Nat) (g : Action σ) (w : World σ)
    (hdone : w.once p = true) :
    pthread_once t (some p) (some g) w = .blocked w
    ∨ ∃ m1, nxrmutex_lock t w.g_lock = some m1
        ∧ pthread_once t (some p) (some g) w
            = .ret OK (afterUnlock t { w with g_lock := m1 }) := by
  cases hl : nxrmutex_lock t w.g_lock with
  | none => exact Or.inl (pthread_once_waits t p g w hl)
  | some m1 => exact Or.inr ⟨m1, rfl, pthread_once_marked t p g w m1 hl hdone⟩

/-- Calls on a set token, by any threads and with any actions, change neither the tokens nor the
user state. -/
theorem runCalls_marked_any {σ : Type} (p : Nat) (cs : List (Tid × Action σ)) :
    ∀ w : World σ, w.once p = true →
      (runCalls (cs.map (fun c => (⟨c.1, some p, some c.2⟩ : Call σ))) w).world.once = w.once
      ∧ (runCalls (cs.map (fun c => (⟨c.1, some p, some c.2⟩ : Call σ))) w).world.user
          = w.user := by
  induction cs with
  | nil =>
    intro w _
    exact ⟨rfl, rfl⟩
  | cons c cs ih =>
    intro w hdone
    simp only [List.map_cons, runCalls]
    rcases pthread_once_marked_cases c.1 p c.2 w hdone with h | ⟨m1, _, h⟩
    · rw [h]
      exact ⟨rfl, rfl⟩
    · rw [h]
      have h2 := ih (afterUnlock c.1 { w with g_lock := m1 }) hdone
      simp only []
      cases hr : runCalls (cs.map (fun c => (⟨c.1, some p, some c.2⟩ : Call σ)))
          (afterUnlock c.1 { w with g_lock := m1 }) with
      | ret rs w2 =>
        rw [hr] at h2
        exact h2
      | abort w2 =>
        rw [hr] at h2
        exact h2
      | blocked w2 =>
        rw [hr] at h2
        exact h2

/-- C14: when the action of a call on a pending token leaves by a non-local exit, not having
reset the token, the call ends by that exit with the token marked.  Every later call on that
token, by any thread and with any action `g`, then either returns OK or waits for the lock, in
a world that does not depend on `g`; and any sequence of later calls on the token leaves the
tokens and the user state as the failed initialiser left them, so no action is run. -/
theorem no_retry_after_abort {σ : Type} (self : Tid) (p : Nat) (f : Action σ) (w w3 : World σ)
    (m : RMutex)
    (hlock : nxrmutex_lock self w.g_lock = some m)
    (hpend : w.once p = false)
    (htok : KeepsToken p f)
    (habort : f (atInit p m w) = .abort w3) :
    pthread_once self (some p) (some f) w = .abort w3
    ∧ w3.once p = true
    ∧ (∀ (t : Tid) (g : Action σ),
        pthread_once t (some p) (some g) w3 = .blocked w3
        ∨ ∃ m1, nxrmutex_lock t w3.g_lock = some m1
            ∧ pthread_once t (some p) (some g) w3
                = .ret OK (afterUnlock t { w3 with g_lock := m1 }))
    ∧ (∀ cs : List (Tid × Action σ),
        (runCalls (cs.map (fun c => (⟨c.1, some p, some c.2⟩ : Call σ))) w3).world.once
          = w3.once
        ∧ (runCalls (cs.map (fun c => (⟨c.1, some p, some c.2⟩ : Call σ))) w3).world.user
          = w3.user) := by
  have hdone : w3.once p = true := by
    have := htok (atInit p m w) (atInit_once p m w)
    rw [habort] at this
    exact this
  refine ⟨?_, hdone, ?_, ?_⟩
  · rw [pthread_once_pending self p f w m hlock hpend, habort]
  · intro t g
    exact pthread_once_marked_cases t p g w3 hdone
  · intro cs
    exact runCalls_marked_any p cs w3 hdone

/-- Witness of C14: thread 1 calls on the pending token at address 0 with the initialiser that
leaves at once; then thread 1 and thread 2 call again with the counter increment, and the
counter is still 0. -/
theorem no_retry_after_abort_witness :
    pthread_once 1 (some 0) (some exitNow)
        { once := fun _ => false, g_lock := NXRMUTEX_INITIALIZER, user := (0 : Nat) }
      = .abort { once := setOnce (fun _ => false) 0, g_lock := ⟨some 1, 1⟩, user := 0 }
    ∧ (runCalls ([(1, incr), (2, incr)].map (fun c => (⟨c.1, some 0, some c.2⟩ : Call Nat)))
        { once := setOnce (fun _ => false) 0, g_lock := ⟨some 1, 1⟩, user := 0 }).world.user
      = 0 :=
  have h := no_retry_after_abort 1 0 exitNow
    { once := fun _ => false, g_lock := NXRMUTEX_INITIALIZER, user := (0 : Nat) }
    { once := setOnce (fun _ => false) 0, g_lock := ⟨some 1, 1⟩, user := 0 }
    ⟨some 1, 1⟩ rfl rfl (fun _ hv => hv) rfl
  ⟨h.1, (h.2.2.2 [(1, incr), (2, incr)]).2⟩

/-! ## C15: tokens are independent -/

/-- C15: a call on the token `a` with an action that leaves another token `b` as it found it
ends, however it ends, with the flag of `b` unchanged.  In particular, when `b` was pending and
the call on `a` has returned, `b` is still pending, and a call on `b` by a thread to which the
lock is available, with an action `g` that returns, returns OK in the world that one run of `g`
produced from the world at line 86, unlocked once. -/
theorem token_independence {σ : Type} (self : Tid) (a b : Nat) (f : Action σ) (w : World σ)
    (hab : a ≠ b)
    (hf : LeavesToken b f) :
    (pthread_once self (some a) (some f) w).world.once b = w.once b
    ∧ (∀ (r : Int) (w1 : World σ), pthread_once self (some a) (some f) w = .ret r w1 →
        w.once b = false →
        w1.once b = false
        ∧ ∀ (t : Tid) (g : Action σ) (m1 : RMutex) (w3 : World σ),
            nxrmutex_lock t w1.g_lock = some m1 →
            g (atInit b m1 w1) = .ret () w3 →
            pthread_once t (some b) (some g) w1 = .ret OK (afterUnlock t w3)) := by
  have hne : ¬ b = a := fun e => hab e.symm
  have hfirst : (pthread_once self (some a) (some f) w).world.once b = w.once b := by
    cases hl : nxrmutex_lock self w.g_lock with
    | none =>
      rw [pthread_once_waits self a f w hl]
      rfl
    | some m =>
      cases hflag : w.once a with
      | true =>
        rw [pthread_once_marked self a f w m hl hflag]
        rfl
      | false =>
        rw [pthread_once_pending self a f w m hl hflag]
        have hk := hf (atInit a m w)
        have hin : (atInit a m w).once b = w.once b := by
          simp [atInit, setOnce, hne]
        rw [hin] at hk
        cases hr : f (atInit a m w) with
        | ret u w3 =>
          rw [hr] at hk
          exact hk
        | abort w3 =>
          rw [hr] at hk
          exact hk
        | blocked w3 =>
          rw [hr] at hk
          exact hk
  refine ⟨hfirst, ?_⟩
  intro r w1 hret hb
  have hb1 : w1.once b = false := by
    rw [hret] at hfirst
    simp only [Outcome.world] at hfirst
    rw [hfirst]
    exact hb
  refine ⟨hb1, ?_⟩
  intro t g m1 w3 hl hg
  rw [pthread_once_pending t b g w1 m1 hl hb1, hg]

/-- Witness of C15: thread 1 calls on the pending token at address 0 with the counter increment;
the token at address 1 is still pending, and a call on it by thread 2 runs the counter
increment, so that the counter ends at 2. -/
theorem token_independence_witness :
    (pthread_once 1 (some 0) (some incr)
        { once := fun _ => false, g_lock := NXRMUTEX_INITIALIZER, user := 0 }).world.once 1
      = false
    ∧ pthread_once 2 (some 1) (some incr)
        { once := setOnce (fun _ => false) 0, g_lock := NXRMUTEX_INITIALIZER, user := 1 }
      = .ret OK (afterUnlock 2
          { once := setOnce (setOnce (fun _ => false) 0) 1, g_lock := ⟨some 2, 1⟩, user := 2 }) :=
  have h := token_independence 1 0 1 incr
    { once := fun _ => false, g_lock := NXRMUTEX_INITIALIZER, user := 0 }
    (by decide) (fun _ => rfl)
  ⟨h.1, (h.2 OK
      { once := setOnce (fun _ => false) 0, g_lock := NXRMUTEX_INITIALIZER, user := 1 }
      rfl rfl).2 2 incr ⟨some 2, 1⟩
      { once := setOnce (setOnce (fun _ => false) 0) 1, g_lock := ⟨some 2, 1⟩, user := 2 }
      rfl rfl⟩

end PthreadOnce
